import Mathlib

/-!
Verification development for the Antigravity2api gateway.

This file shallowly embeds the core of the gateway — the credential
scheduler (`TokenManager`), the usage-ledger query (`getUsageCountSince`),
the signature cache and schema cleaner (`utils.js`), the streaming
response adapter (`parseAndEmitStreamChunk`), and the request
orchestrator loop (`createChatCompletionHandler`) — as executable Lean
definitions, and proves the behavioural properties stated in the design
document about them.

Modelling conventions:
* JS numbers that hold timestamps or HTTP statuses are modelled as `Int`
  (timestamps from `Date.now()` are integral); random draws as `ℚ`.
* JS `undefined`/absent fields are `Option`; JS string falsiness is the
  empty string; `Map` objects are association lists where `set` conses a
  new binding in front (lookup takes the first match, which observes the
  same get/has behaviour as overwriting).
* Network and file-system I/O performed by collaborators is outside the
  state model; where a claim depends on a collaborator that is not part
  of the repository sources, the definition carries a comment saying so.
-/

namespace AG

/-! ## JS string primitives (String.prototype.trim and the regex
replacements used by utils.js `normalizeTextForSignature`) -/

/-- ASCII white-space characters recognised by `String.prototype.trim`
(the full JS definition also trims rarer Unicode space code points, which
none of the claims exercise). -/
def isJsWs (c : Char) : Bool :=
  c = ' ' || c = '\t' || c = '\n' || c = '\r' || c = '\x0b' || c = '\x0c'

/-- Drop trailing white-space. -/
def dropTrailingWs (l : List Char) : List Char :=
  (l.reverse.dropWhile isJsWs).reverse

/-- List-level model of `String.prototype.trim`. -/
def trimList (l : List Char) : List Char :=
  dropTrailingWs (l.dropWhile isJsWs)

/-- `s.trim()` for JS strings. -/
def jsTrim (s : String) : String :=
  String.mk (trimList s.data)

/-- Split a character list around the first occurrence of `pat`,
returning the part before the occurrence and the part after it. -/
def splitFirst (pat : List Char) : List Char → Option (List Char × List Char)
  | [] => none
  | c :: rest =>
    if pat.isPrefixOf (c :: rest) then some ([], (c :: rest).drop pat.length)
    else
      match splitFirst pat rest with
      | some (b, a) => some (c :: b, a)
      | none => none

def thinkOpenTag : List Char := "<think>".data

def thinkCloseTag : List Char := "</think>".data

/-- One global-replace pass of `/<think>[\s\S]*?<\/think>/g` with the
empty replacement: repeatedly remove the span from the leftmost
`<think>` to the nearest following `</think>` (the regex only matches
when a closing tag follows the opening tag).  `fuel` bounds the
recursion; each step strictly shortens the text, so `l.length` fuel is
always sufficient. -/
def stripThinkAux : Nat → List Char → List Char
  | 0, l => l
  | fuel + 1, l =>
    match splitFirst thinkOpenTag l with
    | none => l
    | some (before, afterOpen) =>
      match splitFirst thinkCloseTag afterOpen with
      | none => l
      | some (_, afterClose) => before ++ stripThinkAux fuel afterClose

def stripThink (l : List Char) : List Char :=
  stripThinkAux l.length l

/-- Try to match the markdown-image regex `!\[[^\]]*]\([^)]+\)` exactly
at the head of the list; on success return the remainder after the
match. -/
def matchImageAt : List Char → Option (List Char)
  | '!' :: '[' :: rest =>
    let label := rest.takeWhile (fun c => c ≠ ']')
    (match rest.drop label.length with
     | ']' :: '(' :: rest2 =>
       let target := rest2.takeWhile (fun c => c ≠ ')')
       if target.isEmpty then none
       else
         match rest2.drop target.length with
         | ')' :: rest3 => some rest3
         | _ => none
     | _ => none)
  | _ => none

/-- Global replace of `/!\[[^\]]*]\([^)]+\)/g` with the empty
replacement: scan left to right, removing each match and continuing
after it. -/
def stripImagesAux : Nat → List Char → List Char
  | 0, l => l
  | fuel + 1, l =>
    match l with
    | [] => []
    | c :: rest =>
      match matchImageAt (c :: rest) with
      | some rem => stripImagesAux fuel rem
      | none => c :: stripImagesAux fuel rest

def stripImages (l : List Char) : List Char :=
  stripImagesAux l.length l

/-- Global replace of `/\r\n/g` by `"\n"`. -/
def crlfToLf : List Char → List Char
  | [] => []
  | '\r' :: '\n' :: rest => '\n' :: crlfToLf rest
  | c :: rest => c :: crlfToLf rest

/-- `normalizeTextForSignature` from `src/utils/utils.js`: strip
`<think>` blocks, strip markdown images, normalise CRLF, then trim.
(The JS guard returning `''` for non-string input is outside the typed
model.) -/
def normalizeTextForSignature (s : String) : String :=
  String.mk (trimList (crlfToLf (stripImages (stripThink s.data))))

/-! ## The text-signature cache (utils.js) -/

/-- Value stored in `textThoughtSignatureMap`. -/
structure SigPayload where
  signature : String
  text : String
deriving DecidableEq, Repr

/-- `textThoughtSignatureMap`: newest binding first. -/
abbrev SigMap := List (String × SigPayload)

def sigSet (m : SigMap) (k : String) (v : SigPayload) : SigMap :=
  (k, v) :: m

def sigFind : SigMap → String → Option SigPayload
  | [], _ => none
  | (k, v) :: m, q => if q = k then some v else sigFind m q

/-- `registerTextThoughtSignature(text, thoughtSignature)`: store the
payload under the original text, its normalized form and (when distinct
from the normalized form) its trimmed form. -/
def registerTextThoughtSignature (m : SigMap) (text sig : String) : SigMap :=
  if text = "" ∨ sig = "" then m
  else
    let trimmed := jsTrim text
    let normalized := normalizeTextForSignature trimmed
    let payload : SigPayload := ⟨sig, text⟩
    let m1 := sigSet m text payload
    let m2 := if normalized ≠ "" then sigSet m1 normalized payload else m1
    if trimmed ≠ "" ∧ trimmed ≠ normalized then sigSet m2 trimmed payload else m2

/-- `getTextThoughtSignature(text)`: look up the exact text, then its
trimmed form, then its normalized form; white-space-only queries are
rejected up front. -/
def getTextThoughtSignature (m : SigMap) (text : String) : Option SigPayload :=
  if jsTrim text = "" then none
  else
    match sigFind m text with
    | some p => some p
    | none =>
      let trimmed := jsTrim text
      match sigFind m trimmed with
      | some p => some p
      | none =>
        let normalized := normalizeTextForSignature trimmed
        if normalized = "" then none
        else sigFind m normalized

/-! ## Usage ledger (src/utils/log_store.js) -/

/-- Truthiness of a possibly-absent JS string. -/
def jsTruthyStr : Option String → Bool
  | some s => s ≠ ""
  | none => false

/-- One ledger record, restricted to the fields `getUsageCountSince`
reads.  `timestamp` is the result of `Date.parse(log.timestamp || '')`:
`none` models an unparseable (`NaN`) timestamp. -/
structure LogEntry where
  projectId : Option String
  success : Option Bool
  timestamp : Option Int
deriving DecidableEq, Repr

/-- Predicate of the `filter` inside `getUsageCountSince`. -/
def usageLogKeeps (pid : Option String) (since : Int) (e : LogEntry) : Bool :=
  jsTruthyStr e.projectId && (e.projectId == pid) &&
    !(e.success == some false) &&
    (match e.timestamp with
     | some ts => decide (since ≤ ts)
     | none => false)

/-- `getUsageCountSince(projectId, sinceTimestampMs)` from
`log_store.js`.  (The `Number.isFinite` fallback for the window start is
outside the `Int` model; callers always pass a finite timestamp.) -/
def getUsageCountSince (logs : List LogEntry) (pid : Option String) (since : Int) : Nat :=
  if jsTruthyStr pid = false then 0
  else (logs.filter (usageLogKeeps pid since)).length

/-! ## TokenManager (src/auth/token_manager.js, revision with the
sticky / LRU / weighted-random `getToken`) -/

/-- A credential record, restricted to the fields the scheduler reads. -/
structure Token where
  access_token : String
  refresh_token : String
  projectId : Option String
  enable : Option Bool
deriving DecidableEq, Repr

/-- `getTokenKey`: `token.projectId || token.access_token`. -/
def getTokenKey (t : Token) : String :=
  match t.projectId with
  | some p => if p = "" then t.access_token else p
  | none => t.access_token

/-- `t.enable !== false`. -/
def enabledB (t : Token) : Bool :=
  t.enable != some false

/-- Per-credential runtime statistics. -/
structure TokenStats where
  lastUsed : Int
  lastFailure : Int
  failureCount : Nat
  successCount : Nat
deriving DecidableEq, Repr

def defaultStats : TokenStats := ⟨0, 0, 0, 0⟩

/-- `tokenStats` map read: `getStats` materialises a default record for
unknown keys. -/
def statsFind : List (String × TokenStats) → String → TokenStats
  | [], _ => defaultStats
  | (k, v) :: m, q => if q = k then v else statsFind m q

def statsSet (m : List (String × TokenStats)) (k : String) (v : TokenStats) :
    List (String × TokenStats) :=
  (k, v) :: m

/-- `usageCache` entry `{count, timestamp}`. -/
structure CacheEntry where
  count : Nat
  timestamp : Int
deriving DecidableEq, Repr

/-- The usage cache is keyed by `token.projectId`, which may be absent
(JS `Map` accepts `undefined` keys). -/
abbrev UsageCache := List (Option String × CacheEntry)

def cacheFind : UsageCache → Option String → Option CacheEntry
  | [], _ => none
  | (k, v) :: m, q => if q = k then some v else cacheFind m q

/-- 10-second cache TTL (`USAGE_CACHE_TTL`). -/
def USAGE_CACHE_TTL : Int := 10000

/-- In-memory state of the `TokenManager` singleton.  Config values
(`hourlyLimit`, `cooldownMs`, `MAX_STICKY_USAGE`, `POOL_SIZE`) are part
of the state; `hourlyLimit = 0` models a falsy (unlimited) limit.  The
ledger stands for the usage-log file consulted through
`getUsageCountSince`. -/
structure TMState where
  tokens : List Token
  stats : List (String × TokenStats)
  stickyTokenId : Option String
  stickyUsageCount : Nat
  usageCache : UsageCache
  hourlyLimit : Nat
  cooldownMs : Nat
  maxStickyUsage : Nat
  poolSize : Nat
  ledger : List LogEntry
deriving DecidableEq, Repr

def getStats (st : TMState) (t : Token) : TokenStats :=
  statsFind st.stats (getTokenKey t)

def lastUsedOf (st : TMState) (t : Token) : Int :=
  (getStats st t).lastUsed

/-- `recordSuccess(token)` at time `now`. -/
def recordSuccess (st : TMState) (now : Int) (t : Token) : TMState :=
  let s := getStats st t
  let s1 := { s with lastUsed := now, successCount := s.successCount + 1, failureCount := 0 }
  { st with stats := statsSet st.stats (getTokenKey t) s1 }

/-- `recordFailure(token, statusCode)` at time `now`: bump the failure
streak, stamp `lastFailure` on a 429, and clear the sticky session if it
pointed at this credential. -/
def recordFailure (st : TMState) (now : Int) (t : Token) (statusCode : Option Int) : TMState :=
  let s := getStats st t
  let lf := if statusCode = some 429 then now else s.lastFailure
  let s1 := { s with lastUsed := now, failureCount := s.failureCount + 1, lastFailure := lf }
  let st1 := { st with stats := statsSet st.stats (getTokenKey t) s1 }
  if st1.stickyTokenId = some (getTokenKey t) then
    { st1 with stickyTokenId := none, stickyUsageCount := 0 }
  else st1

/-- `isInCooldown(token)` at time `now`. -/
def isInCooldown (st : TMState) (now : Int) (t : Token) : Bool :=
  let s := getStats st t
  if s.lastFailure = 0 then false
  else decide (now - s.lastFailure < (st.cooldownMs : Int))

/-- `isWithinHourlyLimit(token)` at time `now`: consult the usage cache
when fresh, otherwise recount from the ledger and refresh the cache.
Returns the verdict together with the updated manager state. -/
def isWithinHourlyLimit (st : TMState) (now : Int) (t : Token) : Bool × TMState :=
  if st.hourlyLimit = 0 then (true, st)
  else
    let recompute : Bool × TMState :=
      let usage := getUsageCountSince st.ledger t.projectId (now - 3600000)
      (decide (usage < st.hourlyLimit),
       { st with usageCache := (t.projectId, ⟨usage, now⟩) :: st.usageCache })
    match cacheFind st.usageCache t.projectId with
    | some e => if now - e.timestamp < USAGE_CACHE_TTL then (decide (e.count < st.hourlyLimit), st)
                else recompute
    | none => recompute

/-- The filter building `usableTokens` inside `getToken`, threading the
cache updates made by `isWithinHourlyLimit` through the scan in source
order (JS `Array.prototype.filter` evaluates the predicate left to
right, and `&&` short-circuits before the hourly-limit check). -/
def filterUsableGo (now : Int) (excl : List String) :
    List Token → TMState → List Token × TMState
  | [], st => ([], st)
  | t :: ts, st =>
    if enabledB t && !(isInCooldown st now t) then
      let p := isWithinHourlyLimit st now t
      let keep := p.1 && !(excl.contains (getTokenKey t))
      let rest := filterUsableGo now excl ts p.2
      (if keep then t :: rest.1 else rest.1, rest.2)
    else
      let rest := filterUsableGo now excl ts st
      (rest.1, rest.2)

def filterUsable (st : TMState) (now : Int) (excl : List String) : List Token × TMState :=
  filterUsableGo now excl st.tokens st

/-- The `usableTokens` list computed by `getToken`. -/
def usableTokens (st : TMState) (now : Int) (excl : List String) : List Token :=
  (filterUsable st now excl).1

/-- Stable ascending insertion by `lastUsed`; a stable comparison sort
with the comparator `(a, b) => lastUsed(a) - lastUsed(b)` (JS
`Array.prototype.sort` is stable) produces exactly this list. -/
def insertLU (st : TMState) (t : Token) : List Token → List Token
  | [] => [t]
  | u :: us => if lastUsedOf st t ≤ lastUsedOf st u then t :: u :: us else u :: insertLU st t us

def sortLU (st : TMState) : List Token → List Token
  | [] => []
  | t :: ts => insertLU st t (sortLU st ts)

/-- The cumulative-weight draw: subtract each weight from the running
value and select the first candidate that brings it to `≤ 0`; `d` is
`candidatesWithWeights[0].token`, the initial value of
`selectedToken`. -/
def pickWeighted (rv : ℚ) (d : Token) : List (Token × ℚ) → Token
  | [] => d
  | (t, w) :: rest => if rv - w ≤ 0 then t else pickWeighted (rv - w) d rest

/-- `getToken(excludeIds)` from token_manager.js.  `now` models
`Date.now()` (the call is treated as instantaneous), `rand` models the
`Math.random()` draw in `[0, 1)`.  `prepareToken` (token refresh and
project-id resolution, which are network I/O) is modelled as returning
the selected credential unchanged, so the function returns the
credential chosen by the selection policy together with the updated
in-memory state. -/
def getToken (st : TMState) (now : Int) (excl : List String) (rand : ℚ) :
    Option Token × TMState :=
  if st.tokens = [] then (none, st)
  else
    let fu := filterUsable st now excl
    let usable := fu.1
    let st1 := fu.2
    if usable = [] then
      -- fallback: enabled, non-excluded credentials ordered by LRU
      let fallback := st.tokens.filter (fun t => enabledB t && !(excl.contains (getTokenKey t)))
      match sortLU st1 fallback with
      | [] => (none, st1)
      | f :: _ => (some f, st1)
    else
      let stickyHit : Option Token :=
        match st1.stickyTokenId with
        | some sid =>
          if sid ≠ "" ∧ st1.stickyUsageCount < st1.maxStickyUsage ∧ excl.contains sid = false then
            usable.find? (fun t => getTokenKey t == sid)
          else none
        | none => none
      match stickyHit with
      | some t => (some t, { st1 with stickyUsageCount := st1.stickyUsageCount + 1 })
      | none =>
        let sorted := sortLU st1 usable
        let candidates := sorted.take (min usable.length st1.poolSize)
        let weighted := candidates.map
          (fun t => (t, ((max 0 (now - lastUsedOf st1 t) + 1000 : Int) : ℚ)))
        let totalWeight := (weighted.map Prod.snd).sum
        match candidates with
        | [] => (none, st1)  -- with POOL_SIZE = 0 the JS code would throw a TypeError here
        | c0 :: _ =>
          let selected := pickWeighted (rand * totalWeight) c0 weighted
          let st2 := { st1 with stickyTokenId := some (getTokenKey selected), stickyUsageCount := 1 }
          let st3 :=
            if jsTruthyStr selected.projectId then
              match cacheFind st2.usageCache selected.projectId with
              | some e => { st2 with usageCache :=
                  (selected.projectId, ⟨e.count + 1, e.timestamp⟩) :: st2.usageCache }
              | none => st2
            else st2
          (some selected, st3)

/-- Iterated selection: `k` consecutive `getToken` calls (same clock
reading and exclusions), collecting the returned credentials. -/
def getTokenIter : Nat → TMState → Int → List String → ℚ → List (Option Token) × TMState
  | 0, st, _, _, _ => ([], st)
  | k + 1, st, now, excl, rand =>
    let r := getToken st now excl rand
    let rest := getTokenIter k r.2 now excl rand
    (r.1 :: rest.1, rest.2)

/-! ### Pure characterisation helpers for the selection proofs -/

/-- A state that differs from `st` only in the usage cache and the
sticky-session slot. -/
def stView (st : TMState) (c : UsageCache) (sid : Option String) (n : Nat) : TMState :=
  { st with usageCache := c, stickyTokenId := sid, stickyUsageCount := n }

/-- The hourly-limit verdict evaluated against the state's own cache. -/
def withinLimitPure (st : TMState) (now : Int) (t : Token) : Bool :=
  (isWithinHourlyLimit st now t).1

/-- The pure membership condition for `usableTokens`. -/
def usableCond (st : TMState) (now : Int) (excl : List String) (t : Token) : Bool :=
  enabledB t && !(isInCooldown st now t) && withinLimitPure st now t &&
    !(excl.contains (getTokenKey t))

/-- The cache entry `isWithinHourlyLimit` writes on a recount at `now`. -/
def freshEntry (st : TMState) (now : Int) (k : Option String) : CacheEntry :=
  ⟨getUsageCountSince st.ledger k (now - 3600000), now⟩

/-- Caches reachable from `st.usageCache` during one clock reading:
every key either still has its original binding or has been refreshed
with the ledger count at `now` (which only happens when the original
binding was missing or stale). -/
def Coherent (st : TMState) (now : Int) (c : UsageCache) : Prop :=
  ∀ k, cacheFind c k = cacheFind st.usageCache k ∨
    (cacheFind c k = some (freshEntry st now k) ∧
      ∀ e, cacheFind st.usageCache k = some e → ¬ (now - e.timestamp < USAGE_CACHE_TTL))

/-! ## JSON values and `cleanJsonSchema` (src/utils/utils.js) -/

/-- JSON values (JS objects modelled as ordered field lists; JS objects
cannot hold duplicate keys, but none of the definitions below depend on
that). -/
inductive JValue where
  | jnull
  | jbool (b : Bool)
  | jnum (n : Int)
  | jstr (s : String)
  | jarr (items : List JValue)
  | jobj (fields : List (String × JValue))
deriving Repr

/-- `typeof x === 'object'` (true for objects, arrays and `null`). -/
def isObjType : JValue → Bool
  | .jnull => true
  | .jarr _ => true
  | .jobj _ => true
  | _ => false

/-- JS falsiness of a JSON value. -/
def jsFalsy : JValue → Bool
  | .jnull => true
  | .jbool b => !b
  | .jnum n => n == 0
  | .jstr s => s == ""
  | _ => false

/-- JS string coercion as used by template literals (arrays join their
stringified elements with commas, `null` elements becoming empty; plain
objects print as `[object Object]`). -/
def jsToString : JValue → String
  | .jnull => "null"
  | .jbool b => if b then "true" else "false"
  | .jnum n => toString n
  | .jstr s => s
  | .jarr items => String.intercalate "," (jsArrStrings items)
  | .jobj _ => "[object Object]"
where
  jsArrStrings : List JValue → List String
    | [] => []
    | v :: vs =>
      (match v with
       | .jnull => ""
       | w => jsToString w) :: jsArrStrings vs

/-- The keys of `validationFields`, in object-literal insertion order
(the order `collectValidations` iterates them in). -/
def validationFieldNames : List String :=
  ["minLength", "maxLength", "minimum", "maximum", "minItems", "maxItems",
   "minProperties", "maxProperties", "pattern", "format", "multipleOf"]

/-- `fieldsToRemove`, in insertion order. -/
def removeFieldNames : List String :=
  ["$schema", "additionalProperties", "uniqueItems", "exclusiveMinimum", "exclusiveMaximum"]

def isBadKey (k : String) : Bool :=
  validationFieldNames.contains k || removeFieldNames.contains k

def lookupField : List (String × JValue) → String → Option JValue
  | [], _ => none
  | (k, v) :: fs, q => if q = k then some v else lookupField fs q

def hasField (fs : List (String × JValue)) (q : String) : Bool :=
  (lookupField fs q).isSome

/-- `x === false` for a possibly-absent JSON value. -/
def isJsFalseLit : Option JValue → Bool
  | some (.jbool false) => true
  | _ => false

/-- `x && Array.isArray(x) && x.length === 0` for a possibly-absent
JSON value (an empty array is truthy in JS). -/
def isEmptyJArr : Option JValue → Bool
  | some (.jarr []) => true
  | _ => false

/-- The note strings `collectValidations` pushes for one object level:
`"field: field"` for each validation keyword present (the map sends each
keyword name to itself), then `"no additional properties"` when
`additionalProperties === false`. -/
def validationNotes (fs : List (String × JValue)) : List String :=
  (validationFieldNames.filter (fun f => hasField fs f)).map (fun f => f ++ ": " ++ f) ++
    (if isJsFalseLit (lookupField fs "additionalProperties")
     then ["no additional properties"] else [])

/-- `` `${value || ''} (${validations.join(', ')})`.trim() ``. -/
def annotateDescription (v : JValue) (notes : List String) : String :=
  jsTrim ((if jsFalsy v then "" else jsToString v) ++ " (" ++
    String.intercalate ", " notes ++ ")")

mutual
/-- `cleanObject(obj, path)` from `cleanJsonSchema`; `top` is
`path === ''` (array recursion keeps the current path, object-field
recursion extends it, so only the flag matters).  `collectValidations`
deletes the validation/removal keys before the rebuild loop iterates the
entries; iterating the original entries and skipping those keys (as the
loop's own `continue` guards also do) is the same rebuild. -/
def cleanObject (top : Bool) : JValue → JValue
  | .jarr items => .jarr (cleanArr top items)
  | .jobj fs =>
    let cleaned := cleanFields top (validationNotes fs) fs
    if isEmptyJArr (lookupField cleaned "required") then
      .jobj (cleaned.filter (fun e => e.1 != "required"))
    else .jobj cleaned
  | v => v
termination_by v => sizeOf v

/-- The `obj.map(item => typeof item === 'object' ? cleanObject(item, path) : item)`
branch. -/
def cleanArr (top : Bool) : List JValue → List JValue
  | [] => []
  | v :: vs => (if isObjType v then cleanObject top v else v) :: cleanArr top vs
termination_by l => sizeOf l

/-- The field-rebuilding loop: skip validation/removal keys, annotate
the top-level description when validation notes were collected, recurse
into object-typed values. -/
def cleanFields (top : Bool) (notes : List String) :
    List (String × JValue) → List (String × JValue)
  | [] => []
  | (k, v) :: fs =>
    if isBadKey k then cleanFields top notes fs
    else
      (if k = "description" ∧ notes ≠ [] ∧ top = true then (k, .jstr (annotateDescription v notes))
       else (k, if isObjType v then cleanObject false v else v)) :: cleanFields top notes fs
termination_by l => sizeOf l
end

/-- `cleanJsonSchema(schema)`: falsy or non-object input is returned
unchanged, otherwise clean from the top level. -/
def cleanJsonSchema (v : JValue) : JValue :=
  match v with
  | .jobj _ => cleanObject true v
  | .jarr _ => cleanObject true v
  | w => w

/-! ## Streaming response adapter (src/api/client.js) -/

/-- `usageMetadata` fields read by `toOpenAiUsage`. -/
structure UsageMetadata where
  promptTokenCount : Option Int
  inputTokenCount : Option Int
  candidatesTokenCount : Option Int
  outputTokenCount : Option Int
  totalTokenCount : Option Int
deriving DecidableEq, Repr

structure OpenAiUsage where
  prompt_tokens : Option Int
  completion_tokens : Option Int
  total_tokens : Option Int
deriving DecidableEq, Repr

/-- JS `a ?? b`. -/
def jsNullish (a b : Option Int) : Option Int :=
  match a with
  | some x => some x
  | none => b

/-- `toOpenAiUsage(usageMetadata)`: normalise prompt/completion/total,
inferring a missing completion count as `max(total - prompt, 0)`. -/
def toOpenAiUsage (u : UsageMetadata) : OpenAiUsage :=
  let prompt := jsNullish u.promptTokenCount u.inputTokenCount
  let completion := jsNullish u.candidatesTokenCount u.outputTokenCount
  let total := jsNullish u.totalTokenCount
    (match prompt, completion with
     | some p, some c => some (p + c)
     | _, _ => none)
  let inferredCompletion := jsNullish completion
    (match total, prompt with
     | some t, some p => some (max (t - p) 0)
     | _, _ => total)
  { prompt_tokens := prompt
    completion_tokens := inferredCompletion
    total_tokens := jsNullish total
      (match prompt, inferredCompletion with
       | some p, some c => some (p + c)
       | _, _ => none) }

/-- `functionCall` fields used by `convertToToolCall` (`args` stands for
the already-JSON-stringified arguments). -/
structure FunctionCallPart where
  id : Option String
  name : String
  args : String
deriving DecidableEq, Repr

structure InlineDataPart where
  data : String
  mimeType : String
deriving DecidableEq, Repr

/-- One element of `content.parts`, with the fields the adapter's
if/else chain inspects. -/
structure Part where
  thought : Option Bool
  text : Option String
  functionCall : Option FunctionCallPart
  inlineData : Option InlineDataPart
  thoughtSignature : Option String
deriving DecidableEq, Repr

/-- One decoded streaming frame, flattened to the three paths the code
reads: `response.candidates[0].content.parts`,
`response.candidates[0].finishReason` and `response.usageMetadata`
(`none` models absence at any level of the optional chain). -/
structure Frame where
  parts : Option (List Part)
  finishReason : Option String
  usageMetadata : Option UsageMetadata
deriving DecidableEq, Repr

/-- The downstream tool-call shape built by `convertToToolCall`. -/
structure ToolCall where
  id : String
  callType : String
  name : String
  arguments : String
deriving DecidableEq, Repr

/-- Modelled from the spec: `generateToolCallId()` from the absent
`idGenerator.js` collaborator, yielding a fresh id; modelled as a
counter-indexed name. -/
def generateToolCallId (n : Nat) : String :=
  "call_" ++ toString n

/-- `convertToToolCall(functionCall)`; `fresh` is the generated id used
when `functionCall.id` is falsy. -/
def convertToToolCall (fc : FunctionCallPart) (fresh : String) : ToolCall :=
  { id := match fc.id with
          | some i => if i = "" then fresh else i
          | none => fresh
    callType := "function"
    name := fc.name
    arguments := fc.args }

/-- Whether the conversion consumes a generated id. -/
def usesFreshId (fc : FunctionCallPart) : Bool :=
  match fc.id with
  | some i => i == ""
  | none => true

/-- `thoughtSignatureMap` from utils.js (`registerThoughtSignature`). -/
def registerThoughtSignature (m : List (String × String)) (id sig : String) :
    List (String × String) :=
  if id = "" ∨ sig = "" then m else (id, sig) :: m

/-- `state.textAccumulator`. -/
structure TextAccumulator where
  text : String
  signature : Option String
deriving DecidableEq, Repr

/-- The `state` object of `generateAssistantResponse` plus the two
process-wide signature maps mutated by the adapter and the id-generator
counter. -/
structure StreamState where
  toolCalls : List ToolCall
  usage : Option OpenAiUsage
  textAccumulator : TextAccumulator
  textSigMap : SigMap
  toolSigMap : List (String × String)
  nextToolCallId : Nat
deriving DecidableEq, Repr

/-- The events handed to the per-chunk callback. -/
inductive StreamEvent where
  | thinking (content : String)
  | text (content : String)
  | image (url : String) (mimeType : String) (data : String) (thought : Bool)
  | toolCalls (tool_calls : List ToolCall)
deriving DecidableEq, Repr

def isToolCallsEvent : StreamEvent → Bool
  | .toolCalls _ => true
  | _ => false

/-- Modelled from the spec: `saveBase64Image` from the absent
`imageStorage.js` collaborator — persists the blob and returns a
reference URL. -/
def saveBase64Image (data mimeType : String) : String :=
  "/images/" ++ mimeType ++ "/" ++ data

/-- The if/else chain of the `for (const part of parts)` loop. -/
def processPart (st : StreamState) (p : Part) : StreamState × List StreamEvent :=
  if p.thought = some true then
    -- thinking text is forwarded directly; intermediate thought images are skipped
    (st, if jsTruthyStr p.text then [.thinking (p.text.getD "")] else [])
  else
    match p.text with
    | some t =>
      let st1 :=
        match p.thoughtSignature with
        | some sig =>
          if sig ≠ "" then
            let acc1 := { st.textAccumulator with signature := some sig }
            { st with textSigMap := registerTextThoughtSignature st.textSigMap t sig,
                      textAccumulator := acc1 }
          else st
        | none => st
      let st2 := { st1 with textAccumulator :=
        { st1.textAccumulator with text := st1.textAccumulator.text ++ t } }
      (st2, [.text t])
    | none =>
      match p.functionCall with
      | some fc =>
        let fresh := generateToolCallId st.nextToolCallId
        let tc := convertToToolCall fc fresh
        let nid := if usesFreshId fc then st.nextToolCallId + 1 else st.nextToolCallId
        let st1 := { st with nextToolCallId := nid }
        let st2 :=
          match p.thoughtSignature with
          | some sig =>
            if sig ≠ "" ∧ tc.id ≠ "" then
              { st1 with toolSigMap := registerThoughtSignature st1.toolSigMap tc.id sig }
            else st1
          | none => st1
        ({ st2 with toolCalls := st2.toolCalls ++ [tc] }, [])
      | none =>
        match p.inlineData with
        | some d =>
          (st, [.image (saveBase64Image d.data d.mimeType) d.mimeType d.data (p.thought = some true)])
        | none => (st, [])

def processParts (st : StreamState) : List Part → StreamState × List StreamEvent
  | [] => (st, [])
  | p :: ps =>
    let r := processPart st p
    let rest := processParts r.1 ps
    (rest.1, r.2 ++ rest.2)

/-- `flushTextAccumulator(state)`: persist the accumulated
text/signature pair into the process-wide cache and reset the
accumulator. -/
def flushTextAccumulator (st : StreamState) : StreamState :=
  let txt := st.textAccumulator.text
  let sig := st.textAccumulator.signature
  let st1 :=
    if txt ≠ "" ∧ jsTruthyStr sig = true then
      { st with textSigMap := registerTextThoughtSignature st.textSigMap txt (sig.getD "") }
    else st
  { st1 with textAccumulator := ⟨"", none⟩ }

/-- Processing of one decoded frame: record usage, walk the parts, and
at a frame carrying a `finishReason` flush the accumulator and emit the
buffered tool calls as one batch. -/
def processFrame (st : StreamState) (f : Frame) : StreamState × List StreamEvent :=
  let st1 :=
    match f.usageMetadata with
    | some u => { st with usage := some (toOpenAiUsage u) }
    | none => st
  let r :=
    match f.parts with
    | some ps => processParts st1 ps
    | none => (st1, [])
  if jsTruthyStr f.finishReason then
    let st3 := flushTextAccumulator r.1
    if st3.toolCalls ≠ [] then
      ({ st3 with toolCalls := [] }, r.2 ++ [.toolCalls st3.toolCalls])
    else (st3, r.2)
  else r

/-- One line handed to `parseAndEmitStreamChunk`.  `noData` is a line
without the `'data: '` prefix; `malformed` is a data line whose JSON
payload fails to parse (the `catch` swallows the error); `frame` is a
successfully decoded payload.  The JSON decode itself is performed by
the host runtime, so its outcome is part of the input. -/
inductive RawLine where
  | noData
  | malformed
  | frame (f : Frame)
deriving DecidableEq, Repr

/-- `parseAndEmitStreamChunk(line, state, callback)`, with emitted
events collected in order. -/
def parseAndEmitStreamChunk (st : StreamState) (l : RawLine) : StreamState × List StreamEvent :=
  match l with
  | .noData => (st, [])
  | .malformed => (st, [])
  | .frame f => processFrame st f

/-- The per-chunk driver: process each complete line in order. -/
def processLines (st : StreamState) : List RawLine → StreamState × List StreamEvent
  | [] => (st, [])
  | l :: ls =>
    let r := parseAndEmitStreamChunk st l
    let rest := processLines r.1 ls
    (rest.1, r.2 ++ rest.2)

/-- Specification-side collector: the tool calls produced by converting
every `functionCall` part reached by the part loop, threading the
fresh-id counter exactly as the adapter does. -/
def convertRun (counter : Nat) : List Part → List ToolCall × Nat
  | [] => ([], counter)
  | p :: ps =>
    if p.thought = some true then convertRun counter ps
    else
      match p.text with
      | some _ => convertRun counter ps
      | none =>
        match p.functionCall with
        | some fc =>
          let counter1 := if usesFreshId fc then counter + 1 else counter
          let rest := convertRun counter1 ps
          (convertToToolCall fc (generateToolCallId counter) :: rest.1, rest.2)
        | none => convertRun counter ps

def convertFramesRun (counter : Nat) : List Frame → List ToolCall × Nat
  | [] => ([], counter)
  | f :: fs =>
    let r := convertRun counter (f.parts.getD [])
    let rest := convertFramesRun r.2 fs
    (r.1 ++ rest.1, rest.2)

/-! ## Request orchestrator (createChatCompletionHandler) and the
error classifier `handleApiError` (client.js) -/

/-- The normalised error data `extractErrorDetails` produces from an
upstream failure (HTTP status, parsed `RetryInfo` delay, and the
embedded-auth-error flag).  Its extraction internals read streams and
JSON bodies from the host runtime, so the result is input data here. -/
structure ErrDetails where
  status : Option Int
  retryDelayMs : Option Int
  disableToken : Bool
deriving DecidableEq, Repr

inductive ErrCode where
  | tokenDisabled
  | rateLimited
  | apiError
  | noToken
deriving DecidableEq, Repr

/-- The duck-typed error object thrown to the orchestrator; `status =
none` models the non-numeric `'Unknown'` placeholder. -/
structure ApiErr where
  status : Option Int
  code : ErrCode
  retryAfter : Option Int
deriving DecidableEq, Repr

/-- `disableCurrentToken(token)`: find the live record by access token
and disable it (`disableToken` marks it disabled, persists, and removes
it from the active pool; the in-memory effect is the removal). -/
def disableCurrentToken (tm : TMState) (token : Token) : TMState :=
  match tm.tokens.find? (fun t => t.access_token == token.access_token) with
  | some found =>
    { tm with tokens := tm.tokens.filter (fun t => t.refresh_token != found.refresh_token) }
  | none => tm

/-- `handleApiError(error, token)`: 401/403 or an embedded auth failure
permanently disables the credential and raises `TOKEN_DISABLED`;
otherwise raise `RATE_LIMITED` (429) or `API_ERROR`, carrying the
upstream retry delay. -/
def handleApiError (details : ErrDetails) (tm : TMState) (token : Token) : TMState × ApiErr :=
  if details.status = some 403 ∨ details.status = some 401 ∨ details.disableToken = true then
    (disableCurrentToken tm token,
     { status := details.status, code := .tokenDisabled, retryAfter := none })
  else
    (tm,
     { status := details.status,
       code := if details.status = some 429 then .rateLimited else .apiError,
       retryAfter := details.retryDelayMs })

/-- `calculateRetryDelay(attempt, error)`: prefer the upstream-provided
delay, then a `retry-after` header (seconds), else exponential backoff
with jitter capped at 10 s.  `jitter` models `Math.random() * 1000`. -/
def calculateRetryDelay (attempt : Nat) (e : ApiErr) (headerRetryAfterSec : Option Int)
    (jitter : ℚ) : ℚ :=
  match e.retryAfter with
  | some ms => (ms : ℚ)
  | none =>
    match headerRetryAfterSec with
    | some s => ((s * 1000 : Int) : ℚ)
    | none => (min ((1000 : ℚ) * 2 ^ attempt) 10000) + jitter

/-- `config.retry` values consumed by the handler loop. -/
structure RetryConfig where
  maxAttempts : Nat
  statusCodes : List Int
deriving DecidableEq, Repr

/-- The mutable state of the retry `while` loop. -/
structure LoopState where
  attempt : Nat
  retryCountForLog : Nat
  excludedTokenIds : List String
  retried429Tokens : List String
  retryingToken : Option Token
  tm : TMState
  lastError : Option ApiErr
deriving DecidableEq, Repr

/-- Outcome of dispatching one upstream attempt (the environment's
contribution to an iteration). -/
inductive DispatchOutcome where
  | ok
  | fail (details : ErrDetails)
deriving DecidableEq, Repr

/-- How one loop iteration ended. -/
inductive HaltKind where
  | success (t : Token)
  | noTokenHalt (e : ApiErr)
  | terminal (e : ApiErr)
deriving DecidableEq, Repr

inductive IterResult where
  | halted (k : HaltKind) (tm : TMState)
  | continued (s : LoopState)
deriving DecidableEq, Repr

/-- Observable actions of one iteration: which credential was
dispatched, and the wait performed before a same-credential 429
retry. -/
structure IterTrace where
  dispatched : Option Token
  waitedMs : Option ℚ
deriving DecidableEq, Repr

/-- One iteration of the `while (attempt < maxAttempts)` body of
`createChatCompletionHandler`, for an iteration that reaches a dispatch
with outcome `outcome`.  `pick` abstracts the injected `resolveToken`
callback (`(req, excludeIds) => tokenManager.getToken(excludeIds)` in
the OpenAI route); `headerRA` and `jitter` feed
`calculateRetryDelay`. -/
def stepIter (cfg : RetryConfig) (pick : TMState → List String → Option Token) (now : Int)
    (s : LoopState) (outcome : DispatchOutcome) (headerRA : Option Int) (jitter : ℚ) :
    IterResult × IterTrace :=
  let attempt := s.attempt + 1
  let isLast : Bool := attempt == cfg.maxAttempts
  let tokenOpt :=
    match s.retryingToken with
    | some t => some t
    | none => pick s.tm s.excludedTokenIds
  let s0 := { s with retryingToken := none, attempt := attempt }
  match tokenOpt with
  | none =>
    -- the NO_TOKEN error is thrown and lands in the catch: with no token
    -- both the 429 branch and recordFailure are skipped and the request ends
    (.halted (.noTokenHalt ⟨some 503, .noToken, none⟩) s0.tm, ⟨none, none⟩)
  | some token =>
    match outcome with
    | .ok =>
      (.halted (.success token) (recordSuccess s0.tm now token), ⟨some token, none⟩)
    | .fail details =>
      let he := handleApiError details s0.tm token
      let tm1 := he.1
      let e := he.2
      if e.status = some 429 ∧ s.retried429Tokens.contains (getTokenKey token) = false then
        let delay := calculateRetryDelay attempt e headerRA jitter
        let sNext := { s0 with
                       tm := tm1,
                       retried429Tokens := getTokenKey token :: s0.retried429Tokens,
                       retryingToken := some token,
                       attempt := attempt - 1,
                       retryCountForLog := s0.retryCountForLog + 1,
                       lastError := some e }
        (.continued sNext, ⟨some token, some delay⟩)
      else
        let tm2 := recordFailure tm1 now token e.status
        let s1 := { s0 with
                    tm := tm2,
                    excludedTokenIds := getTokenKey token :: s0.excludedTokenIds,
                    lastError := some e }
        if e.code = .noToken then
          (.halted (.noTokenHalt e) s1.tm, ⟨some token, none⟩)
        else
          let isRetryable :=
            (match e.status with
             | some v => cfg.statusCodes.contains v
             | none => false) || e.code == .tokenDisabled || e.code == .rateLimited
          if isLast = false ∧ isRetryable = true then
            (.continued { s1 with retryCountForLog := s1.retryCountForLog + 1 },
             ⟨some token, none⟩)
          else
            (.halted (.terminal e) s1.tm, ⟨some token, none⟩)

/-- Projection used to chain concrete iterations in closed statements. -/
def continuedStateD (r : IterResult) (d : LoopState) : LoopState :=
  match r with
  | .continued s => s
  | .halted _ _ => d

def isContinued : IterResult → Bool
  | .continued _ => true
  | .halted _ _ => false

/-! ## Specification-side definitions used to state refinement claims -/

/-- The ledger-entry predicate stated by the hourly-cap claim: an entry
for the given credential, with a parseable timestamp at or after the
window start, whose success flag is not `false`. -/
def usageClaimKeeps (pid : String) (since : Int) (e : LogEntry) : Bool :=
  (e.projectId == some pid) && !(e.success == some false) &&
    (match e.timestamp with
     | some ts => decide (since ≤ ts)
     | none => false)

/-! ## Concrete instances used by witnesses and counterexamples -/

def exTokA : Token := ⟨"a", "ra", some "p", none⟩

def exTokB : Token := ⟨"b", "rb", some "q", none⟩

/-- One credential, sticky session pointing at it with its use budget
exhausted (`stickyUsageCount = maxStickyUsage = 1`), no cooldown, no
hourly limit. -/
def exStickyExhausted : TMState := ⟨[exTokA], [], some "p", 1, [], 0, 300000, 1, 3, []⟩

/-- Two credentials, sticky session on the first with budget left. -/
def exStickyLive : TMState := ⟨[exTokA, exTokB], [], some "p", 1, [], 0, 300000, 3, 3, []⟩

/-- Two credentials with failure stamps placing both in cooldown at
`now = 1000`. -/
def exAllCooling : TMState :=
  ⟨[exTokA, exTokB], [("p", ⟨500, 900, 1, 0⟩), ("q", ⟨700, 950, 1, 0⟩)], none, 0, [],
   0, 300000, 5, 3, []⟩

/-- A fresh single-credential state with no sticky session. -/
def exFresh : TMState := ⟨[exTokA], [], none, 0, [], 0, 300000, 5, 3, []⟩

/-- Example ledger for the usage-count witness. -/
def exLedger : List LogEntry :=
  [⟨some "p", some true, some 100⟩, ⟨some "p", some false, some 200⟩,
   ⟨some "p", some true, some 50⟩, ⟨some "q", some true, some 300⟩,
   ⟨some "p", none, none⟩]

/-- Orchestrator example: pick the first non-excluded credential of the
pool (a selection respecting the exclusion set, as `getToken` does). -/
def exPick (tm : TMState) (excl : List String) : Option Token :=
  (tm.tokens.filter (fun t => !(excl.contains (getTokenKey t)))).head?

def exRetryConfig : RetryConfig := ⟨3, [429, 500]⟩

def exTM2 : TMState := ⟨[exTokA, exTokB], [], none, 0, [], 0, 300000, 5, 3, []⟩

def exLoopStart : LoopState := ⟨0, 0, [], [], none, exTM2, none⟩

def exAuthDetails : ErrDetails := ⟨some 403, none, false⟩

def ex429Details : ErrDetails := ⟨some 429, none, false⟩

/-- Streaming example: a frame carrying one function call and no finish
reason, followed by the finishing frame. -/
def exCallFrame : Frame :=
  ⟨some [⟨none, none, some ⟨some "id1", "fn", "{}"⟩, none, none⟩], none, none⟩

def exFinishFrame : Frame := ⟨none, some "STOP", none⟩

def exStreamState : StreamState := ⟨[], none, ⟨"", none⟩, [], [], 0⟩

/-! # Theorems -/

/-! ## String lemmas -/

theorem dropWhile_dropWhile_self (p : Char → Bool) (l : List Char) :
    (l.dropWhile p).dropWhile p = l.dropWhile p := by
  induction l with
  | nil => rfl
  | cons a l ih =>
    by_cases h : p a = true
    · simpa [List.dropWhile_cons, h] using ih
    · simp [List.dropWhile_cons, h]

theorem dropTrailingWs_prefix (l : List Char) :
    ∃ s, l = dropTrailingWs l ++ s := by
  refine ⟨(l.reverse.takeWhile isJsWs).reverse, ?_⟩
  conv_lhs => rw [← l.reverse_reverse,
    ← List.takeWhile_append_dropWhile (p := isJsWs) (l := l.reverse)]
  rw [List.reverse_append]
  rfl

theorem dropWhile_length_le (p : Char → Bool) (l : List Char) :
    (l.dropWhile p).length ≤ l.length := by
  induction l with
  | nil => simp
  | cons a l ih =>
    by_cases h : p a = true
    · simp only [List.dropWhile_cons, h, if_true]
      exact le_trans ih (by simp)
    · simp [List.dropWhile_cons, h]

theorem dropWhile_eq_self_of_prefix (p : Char → Bool) (l P s : List Char)
    (hl : l.dropWhile p = l) (hs : l = P ++ s) : P.dropWhile p = P := by
  cases P with
  | nil => rfl
  | cons a ps =>
    have ha : p a = false := by
      by_contra hpa
      have hpa' : p a = true := by
        cases h : p a
        · exact absurd h hpa
        · rfl
      have hdw : l.dropWhile p = (ps ++ s).dropWhile p := by
        rw [hs]
        simp [List.dropWhile_cons, hpa']
      have hlen : l.length ≤ (ps ++ s).length := by
        calc l.length = (l.dropWhile p).length := by rw [hl]
        _ = ((ps ++ s).dropWhile p).length := by rw [hdw]
        _ ≤ (ps ++ s).length := dropWhile_length_le _ _
      simp [hs] at hlen
    simp [List.dropWhile_cons, ha]

theorem dropTrailingWs_dropTrailingWs (l : List Char) :
    dropTrailingWs (dropTrailingWs l) = dropTrailingWs l := by
  unfold dropTrailingWs
  rw [List.reverse_reverse, dropWhile_dropWhile_self]

theorem trimList_idem (l : List Char) : trimList (trimList l) = trimList l := by
  have hA : (l.dropWhile isJsWs).dropWhile isJsWs = l.dropWhile isJsWs :=
    dropWhile_dropWhile_self _ _
  obtain ⟨s, hs⟩ := dropTrailingWs_prefix (l.dropWhile isJsWs)
  have h1 : (trimList l).dropWhile isJsWs = trimList l :=
    dropWhile_eq_self_of_prefix _ _ _ _ hA hs
  show dropTrailingWs ((trimList l).dropWhile isJsWs) = trimList l
  rw [h1]
  exact dropTrailingWs_dropTrailingWs _

theorem jsTrim_idem (s : String) : jsTrim (jsTrim s) = jsTrim s := by
  show String.mk (trimList (trimList s.data)) = String.mk (trimList s.data)
  rw [trimList_idem]

theorem jsTrim_normalize (s : String) :
    jsTrim (normalizeTextForSignature s) = normalizeTextForSignature s := by
  show String.mk (trimList (trimList _)) = _
  rw [trimList_idem]
  rfl

/-! ## C6 — signature-cache round trip -/

theorem sigFind_cons_self (m : SigMap) (k : String) (v : SigPayload) :
    sigFind ((k, v) :: m) k = some v := by
  simp [sigFind]

theorem sigFind_set_preserve (m : SigMap) (k q : String) (v : SigPayload)
    (h : sigFind m q = some v) : sigFind (sigSet m k v) q = some v := by
  by_cases hqk : q = k <;> simp [sigSet, sigFind, hqk, h]

theorem jsTrim_empty : jsTrim "" = "" := rfl

theorem sigFind_register (m : SigMap) (t s : String) (ht : t ≠ "") (hs : s ≠ "") :
    sigFind (registerTextThoughtSignature m t s) t = some ⟨s, t⟩ ∧
    (jsTrim t ≠ "" →
      sigFind (registerTextThoughtSignature m t s) (jsTrim t) = some ⟨s, t⟩) ∧
    (normalizeTextForSignature (jsTrim t) ≠ "" →
      sigFind (registerTextThoughtSignature m t s)
        (normalizeTextForSignature (jsTrim t)) = some ⟨s, t⟩) := by
  simp only [registerTextThoughtSignature]
  rw [if_neg (by tauto)]
  generalize jsTrim t = T
  generalize normalizeTextForSignature T = N
  by_cases hC2 : N ≠ ""
  · rw [if_pos hC2]
    by_cases hC1 : T ≠ "" ∧ T ≠ N
    · rw [if_pos hC1]
      refine ⟨?_, fun _ => ?_, fun _ => ?_⟩
      · exact sigFind_set_preserve _ _ _ _
          (sigFind_set_preserve _ _ _ _ (sigFind_cons_self _ _ _))
      · exact sigFind_cons_self _ _ _
      · exact sigFind_set_preserve _ _ _ _ (sigFind_cons_self _ _ _)
    · rw [if_neg hC1]
      refine ⟨?_, fun hT => ?_, fun _ => ?_⟩
      · exact sigFind_set_preserve _ _ _ _ (sigFind_cons_self _ _ _)
      · push_neg at hC1
        rw [hC1 hT]
        exact sigFind_cons_self _ _ _
      · exact sigFind_cons_self _ _ _
  · rw [if_neg hC2]
    have hN : N = "" := not_not.mp hC2
    by_cases hC1 : T ≠ "" ∧ T ≠ N
    · rw [if_pos hC1]
      refine ⟨?_, fun _ => ?_, fun hN2 => absurd hN hN2⟩
      · exact sigFind_set_preserve _ _ _ _ (sigFind_cons_self _ _ _)
      · exact sigFind_cons_self _ _ _
    · rw [if_neg hC1]
      refine ⟨sigFind_cons_self _ _ _, fun hT => ?_, fun hN2 => absurd hN hN2⟩
      push_neg at hC1
      rw [hC1 hT, hN] at hT
      exact absurd rfl hT

/-- Claim C6 is falsified by a white-space-only text: registering
`(" ", "sig")` stores bindings, but `getTextThoughtSignature(" ")`
rejects the query up front because its trimmed form is empty, returning
nothing instead of the registered signature. -/
theorem c6_signature_roundtrip_counterexample :
    getTextThoughtSignature (registerTextThoughtSignature [] " " "sig") " " = none := by
  decide

/-- Claim C6 (amended): for a signature `s ≠ ''` and a text whose
trimmed form is non-empty, after `registerTextThoughtSignature(t, s)`
querying with the exact text and with the trimmed text returns the
registered signature, and so does querying with the normalized form
(the form the register path derives from the trimmed text) whenever that
form is non-empty.  The original claim fails only for texts whose
trimmed or normalized forms are empty. -/
theorem c6_signature_roundtrip_amended (m : SigMap) (t s : String)
    (hs : s ≠ "") (ht : jsTrim t ≠ "") :
    (∃ p, getTextThoughtSignature (registerTextThoughtSignature m t s) t = some p ∧
      p.signature = s) ∧
    (∃ p, getTextThoughtSignature (registerTextThoughtSignature m t s) (jsTrim t) = some p ∧
      p.signature = s) ∧
    (normalizeTextForSignature (jsTrim t) ≠ "" →
      ∃ p, getTextThoughtSignature (registerTextThoughtSignature m t s)
        (normalizeTextForSignature (jsTrim t)) = some p ∧ p.signature = s) := by
  have ht0 : t ≠ "" := by
    intro h
    rw [h, jsTrim_empty] at ht
    exact ht rfl
  obtain ⟨h1, h2, h3⟩ := sigFind_register m t s ht0 hs
  refine ⟨⟨⟨s, t⟩, ?_, rfl⟩, ⟨⟨s, t⟩, ?_, rfl⟩, fun hN => ⟨⟨s, t⟩, ?_, rfl⟩⟩
  · unfold getTextThoughtSignature
    rw [if_neg ht, h1]
  · unfold getTextThoughtSignature
    rw [if_neg (by rw [jsTrim_idem]; exact ht), h2 ht]
  · unfold getTextThoughtSignature
    rw [if_neg (by rw [jsTrim_normalize]; exact hN), h3 hN]

/-- Witness for the amended C6 at a concrete registration. -/
theorem c6_signature_roundtrip_amended_witness :
    (("sig" : String) ≠ "" ∧ jsTrim " hello " ≠ "") ∧
      (∃ p, getTextThoughtSignature (registerTextThoughtSignature [] " hello " "sig")
        " hello " = some p ∧ p.signature = "sig") ∧
      (∃ p, getTextThoughtSignature (registerTextThoughtSignature [] " hello " "sig")
        (jsTrim " hello ") = some p ∧ p.signature = "sig") := by
  have h := c6_signature_roundtrip_amended [] " hello " "sig" (by decide) (by decide)
  exact ⟨⟨by decide, by decide⟩, h.1, h.2.1⟩

/-! ## C3 — cooldown window -/

/-- Claim C3: after `recordFailure(c, 429)` at time `T > 0`, the
credential is in cooldown at every instant in `[T, T + cooldownMs)` and
out of cooldown at every instant `≥ T + cooldownMs` (in this one-step
model no further failure is recorded in between). -/
theorem c3_cooldown_window (st : TMState) (t : Token) (T : Int) (hT : 0 < T) :
    (∀ q : Int, T ≤ q → q < T + (st.cooldownMs : Int) →
      isInCooldown (recordFailure st T t (some 429)) q t = true) ∧
    (∀ q : Int, T + (st.cooldownMs : Int) ≤ q →
      isInCooldown (recordFailure st T t (some 429)) q t = false) := by
  have hstats : getStats (recordFailure st T t (some 429)) t =
      ⟨T, T, (getStats st t).failureCount + 1, (getStats st t).successCount⟩ := by
    simp only [recordFailure]
    split <;> simp [getStats, statsSet, statsFind]
  have hcd : (recordFailure st T t (some 429)).cooldownMs = st.cooldownMs := by
    simp only [recordFailure]
    split <;> rfl
  constructor
  · intro q h1 h2
    unfold isInCooldown
    rw [hstats, hcd]
    simp only
    rw [if_neg (by omega)]
    simpa using by omega
  · intro q h1
    unfold isInCooldown
    rw [hstats, hcd]
    simp only
    rw [if_neg (by omega)]
    simpa using by omega

/-- Witness for C3 at a concrete state and failure time. -/
theorem c3_cooldown_window_witness :
    (0 : Int) < 900 ∧
      isInCooldown (recordFailure exFresh 900 exTokA (some 429)) 1000 exTokA = true ∧
      isInCooldown (recordFailure exFresh 900 exTokA (some 429)) 300900 exTokA = false := by
  have h := c3_cooldown_window exFresh exTokA 900 (by decide)
  exact ⟨by decide, h.1 1000 (by decide) (by decide), h.2 300900 (by decide)⟩

/-! ## C10 — hourly usage count -/

/-- Claim C10 (implicit): for a non-empty credential id,
`getUsageCountSince` counts exactly the ledger entries for that
credential with a parseable timestamp at or after the window start whose
success flag is not `false` — failed attempts never count. -/
theorem c10_usage_count (logs : List LogEntry) (pid : String) (since : Int)
    (h : pid ≠ "") :
    getUsageCountSince logs (some pid) since =
      (logs.filter (usageClaimKeeps pid since)).length := by
  unfold getUsageCountSince
  rw [if_neg (by simp [jsTruthyStr, h])]
  congr 1
  apply List.filter_congr
  intro e _
  unfold usageLogKeeps usageClaimKeeps
  cases hpe : e.projectId with
  | none => simp [jsTruthyStr]
  | some q =>
    by_cases hq : q = pid
    · subst hq
      simp [jsTruthyStr, h]
    · have hb : (q == pid) = false := by
        simp [beq_iff_eq, hq]
      simp [jsTruthyStr, hb]

/-- Witness for C10 on a concrete ledger: of five entries, the two
successes for `"p"` inside the window count; the failed entry, the
unparseable entry and the other credential's entry do not. -/
theorem c10_usage_count_witness :
    ("p" : String) ≠ "" ∧
      getUsageCountSince exLedger (some "p") 60 =
        (exLedger.filter (usageClaimKeeps "p" 60)).length ∧
      getUsageCountSince exLedger (some "p") 60 = 1 := by
  refine ⟨by decide, c10_usage_count exLedger "p" 60 (by decide), by decide⟩

/-! ## C7 — schema-cleaning idempotence -/

theorem cleanObject_isObjType (top : Bool) (v : JValue) :
    isObjType (cleanObject top v) = isObjType v := by
  cases v with
  | jarr items =>
    rw [cleanObject]
    rfl
  | jobj fs =>
    rw [cleanObject]
    split <;> rfl
  | jnull => simp [cleanObject]
  | jbool b => simp [cleanObject]
  | jnum m => simp [cleanObject]
  | jstr s => simp [cleanObject]

theorem cleanFields_keys_good (top : Bool) (notes : List String)
    (fs : List (String × JValue)) :
    ∀ e ∈ cleanFields top notes fs, isBadKey e.1 = false := by
  induction fs with
  | nil => simp [cleanFields]
  | cons kv fs ih =>
    obtain ⟨k, v⟩ := kv
    by_cases hbad : isBadKey k = true
    · simpa [cleanFields, hbad] using ih
    · intro e he
      rw [cleanFields] at he
      rw [if_neg hbad] at he
      rcases List.mem_cons.mp he with h | h
      · subst h
        split <;> simpa using by simpa using hbad
      · exact ih e h

theorem lookupField_none_of_good (fs : List (String × JValue)) (q : String)
    (hgood : ∀ e ∈ fs, isBadKey e.1 = false) (hq : isBadKey q = true) :
    lookupField fs q = none := by
  induction fs with
  | nil => rfl
  | cons kv fs ih =>
    obtain ⟨k, v⟩ := kv
    have hk : isBadKey k = false := hgood (k, v) (List.mem_cons_self _ _)
    have hqk : q ≠ k := by
      intro h
      rw [h, hk] at hq
      cases hq
    rw [lookupField, if_neg hqk]
    exact ih fun e he => hgood e (List.mem_cons_of_mem _ he)

theorem validationNotes_nil_of_good (fs : List (String × JValue))
    (hgood : ∀ e ∈ fs, isBadKey e.1 = false) : validationNotes fs = [] := by
  unfold validationNotes
  have h1 : validationFieldNames.filter (fun f => hasField fs f) = [] := by
    apply List.filter_eq_nil_iff.mpr
    intro f hf
    have : isBadKey f = true := by
      simp only [isBadKey, Bool.or_eq_true]
      exact Or.inl (List.elem_iff.mpr hf)
    simp [hasField, lookupField_none_of_good fs f hgood this]
  have h2 : lookupField fs "additionalProperties" = none :=
    lookupField_none_of_good fs _ hgood (by decide)
  rw [h1, h2]
  rfl

theorem lookupField_filter_ne (fs : List (String × JValue)) (q : String) :
    lookupField (fs.filter (fun e => e.1 != q)) q = none := by
  induction fs with
  | nil => rfl
  | cons kv fs ih =>
    obtain ⟨k, v⟩ := kv
    by_cases hkq : k = q
    · simpa [List.filter_cons, hkq] using ih
    · have : ((k, v).1 != q) = true := by simp [hkq]
      rw [List.filter_cons, if_pos this, lookupField]
      rw [if_neg (Ne.symm hkq)]
      exact ih

theorem cleanFields_values_fix (top : Bool) (notes : List String)
    (fs : List (String × JValue))
    (h : ∀ e ∈ fs, cleanObject false (cleanObject false e.2) = cleanObject false e.2) :
    ∀ e ∈ cleanFields top notes fs, isObjType e.2 = true → cleanObject false e.2 = e.2 := by
  induction fs with
  | nil => simp [cleanFields]
  | cons kv fs ih =>
    obtain ⟨k, v⟩ := kv
    have hhead := h (k, v) (List.mem_cons_self _ _)
    have htail := fun e he => h e (List.mem_cons_of_mem _ he)
    intro e he
    rw [cleanFields] at he
    by_cases hbad : isBadKey k = true
    · rw [if_pos hbad] at he
      exact ih htail e he
    · rw [if_neg hbad] at he
      rcases List.mem_cons.mp he with hcase | hcase
      · subst hcase
        split
        · intro habs
          cases habs
        · intro hobj
          by_cases hov : isObjType v = true

          · simpa [hov] using by simpa [hov] using hhead
          · simp only [hov, if_neg] at hobj ⊢
            rw [if_neg (by simp [hov])] at hobj ⊢
            cases hov (by simpa using hobj)
      · exact ih htail e hcase

theorem cleanFields_id_of (top : Bool) (fs : List (String × JValue))
    (hk : ∀ e ∈ fs, isBadKey e.1 = false)
    (hv : ∀ e ∈ fs, isObjType e.2 = true → cleanObject false e.2 = e.2) :
    cleanFields top [] fs = fs := by
  induction fs with
  | nil => rw [cleanFields]
  | cons kv fs ih =>
    obtain ⟨k, v⟩ := kv
    have hkh : isBadKey k = false := hk (k, v) (List.mem_cons_self _ _)
    rw [cleanFields, if_neg (by simp [hkh])]
    have hcond : ¬ (k = "description" ∧ ([] : List String) ≠ [] ∧ top = true) := by
      rintro ⟨-, h, -⟩
      exact h rfl
    rw [if_neg hcond]
    have hvv : (if isObjType v then cleanObject false v else v) = v := by
      by_cases hov : isObjType v = true
      · rw [if_pos hov]
        exact hv (k, v) (List.mem_cons_self _ _) hov
      · rw [if_neg hov]
    rw [hvv, ih (fun e he => hk e (List.mem_cons_of_mem _ he))
      (fun e he => hv e (List.mem_cons_of_mem _ he))]

theorem cleanObject_idem_aux :
    ∀ n : Nat, ∀ v : JValue, sizeOf v < n → ∀ top : Bool,
      cleanObject top (cleanObject top v) = cleanObject top v := by
  intro n
  induction n with
  | zero => intro v hv; omega
  | succ n ih =>
    intro v hv top
    cases v with
    | jnull => simp [cleanObject]
    | jbool b => simp [cleanObject]
    | jnum m => simp [cleanObject]
    | jstr s => simp [cleanObject]
    | jarr items =>
      have harr : ∀ its : List JValue,
          (∀ w ∈ its, cleanObject top (cleanObject top w) = cleanObject top w) →
          cleanArr top (cleanArr top its) = cleanArr top its := by
        intro its h
        induction its with
        | nil => rw [cleanArr, cleanArr]
        | cons w ws ihw =>
          have hw := h w (List.mem_cons_self _ _)
          have hws := ihw fun x hx => h x (List.mem_cons_of_mem _ hx)
          rw [cleanArr, cleanArr, hws]
          by_cases hov : isObjType w = true
          · rw [if_pos hov, if_pos (by rw [cleanObject_isObjType]; exact hov), hw]
          · rw [if_neg hov, if_neg hov]
      have hmem : ∀ w ∈ items, cleanObject top (cleanObject top w) = cleanObject top w := by
        intro w hw
        apply ih
        have h1 : sizeOf w < sizeOf items := List.sizeOf_lt_of_mem hw
        have h2 : sizeOf (JValue.jarr items) = 1 + sizeOf items := by simp
        omega
      have e1 : cleanObject top (JValue.jarr items) = .jarr (cleanArr top items) := by
        rw [cleanObject]
      have e2 : cleanObject top (JValue.jarr (cleanArr top items)) =
          .jarr (cleanArr top (cleanArr top items)) := by
        rw [cleanObject]
      rw [e1, e2, harr items hmem]
    | jobj fs =>
      -- value-level induction hypothesis for the fields
      have hmem : ∀ e ∈ fs, cleanObject false (cleanObject false e.2) = cleanObject false e.2 := by
        intro e he
        apply ih
        have h1 : sizeOf e < sizeOf fs := List.sizeOf_lt_of_mem he
        have h2 : sizeOf (JValue.jobj fs) = 1 + sizeOf fs := by simp
        have h3 : sizeOf e.2 < sizeOf e := by
          obtain ⟨k, v⟩ := e
          simp
        omega
      rw [cleanObject]
      set cleaned := cleanFields top (validationNotes fs) fs with hcleaned
      have hgood : ∀ e ∈ cleaned, isBadKey e.1 = false := cleanFields_keys_good _ _ _
      have hfix : ∀ e ∈ cleaned, isObjType e.2 = true → cleanObject false e.2 = e.2 :=
        cleanFields_values_fix _ _ _ hmem
      by_cases hreq : isEmptyJArr (lookupField cleaned "required") = true
      · rw [if_pos hreq]
        set final := cleaned.filter (fun e => e.1 != "required") with hfinal
        have hgoodF : ∀ e ∈ final, isBadKey e.1 = false :=
          fun e he => hgood e (List.mem_filter.mp he).1
        have hfixF : ∀ e ∈ final, isObjType e.2 = true → cleanObject false e.2 = e.2 :=
          fun e he => hfix e (List.mem_filter.mp he).1
        rw [cleanObject, validationNotes_nil_of_good final hgoodF,
          cleanFields_id_of top final hgoodF hfixF]
        rw [if_neg (by rw [hfinal, lookupField_filter_ne]; simp [isEmptyJArr])]
      · rw [if_neg hreq]
        rw [cleanObject, validationNotes_nil_of_good cleaned hgood,
          cleanFields_id_of top cleaned hgood hfix]
        rw [if_neg hreq]

/-- Claim C7: `cleanJsonSchema` is idempotent — cleaning an
already-cleaned schema removes no further keywords, appends no duplicate
validation note to the description, and deletes nothing else. -/
theorem c7_cleanJsonSchema_idem (v : JValue) :
    cleanJsonSchema (cleanJsonSchema v) = cleanJsonSchema v := by
  have hidem : ∀ top, cleanObject top (cleanObject top v) = cleanObject top v :=
    fun top => cleanObject_idem_aux (sizeOf v + 1) v (by omega) top
  cases v with
  | jarr items =>
    obtain ⟨its, hshape⟩ : ∃ its, cleanObject true (JValue.jarr items) = .jarr its :=
      ⟨_, by rw [cleanObject]⟩
    show cleanJsonSchema (cleanObject true (.jarr items)) = cleanObject true (.jarr items)
    rw [hshape]
    show cleanObject true (.jarr its) = .jarr its
    rw [← hshape]
    exact hidem true
  | jobj fs =>
    obtain ⟨gs, hshape⟩ : ∃ gs, cleanObject true (JValue.jobj fs) = .jobj gs := by
      rw [cleanObject]
      split
      · exact ⟨_, rfl⟩
      · exact ⟨_, rfl⟩
    show cleanJsonSchema (cleanObject true (.jobj fs)) = cleanObject true (.jobj fs)
    rw [hshape]
    show cleanObject true (.jobj gs) = .jobj gs
    rw [← hshape]
    exact hidem true
  | jnull => rfl
  | jbool b => rfl
  | jnum m => rfl
  | jstr s => rfl

/-! ## C8 — tool calls are batched at the finish boundary -/

theorem processPart_spec (st : StreamState) (p : Part) :
    (processPart st p).1.toolCalls = st.toolCalls ++ (convertRun st.nextToolCallId [p]).1 ∧
    (processPart st p).1.nextToolCallId = (convertRun st.nextToolCallId [p]).2 ∧
    ∀ e ∈ (processPart st p).2, isToolCallsEvent e = false := by
  by_cases h1 : p.thought = some true
  · rw [processPart, if_pos h1, convertRun, if_pos h1]
    refine ⟨by simp [convertRun], by simp [convertRun], ?_⟩
    intro e he
    simp only at he
    split at he
    · rcases List.mem_singleton.mp he with rfl
      rfl
    · simp at he
  · rw [processPart, if_neg h1, convertRun, if_neg h1]
    cases ht : p.text with
    | some t =>
      simp only
      refine ⟨?_, ?_, ?_⟩
      · cases hsig : p.thoughtSignature <;> simp [convertRun] <;> split <;> rfl
      · cases hsig : p.thoughtSignature <;> simp [convertRun] <;> split <;> rfl
      · intro e he
        cases hsig : p.thoughtSignature <;> simp [hsig] at he <;> simp [he, isToolCallsEvent]
    | none =>
      cases hfc : p.functionCall with
      | some fc =>
        simp only
        refine ⟨?_, ?_, ?_⟩
        · cases hsig : p.thoughtSignature <;> simp [convertRun] <;> split <;> rfl
        · cases hsig : p.thoughtSignature <;>
            simp [convertRun] <;> split <;> simp [convertRun]
        · intro e he
          cases hsig : p.thoughtSignature <;> simp [hsig] at he
      | none =>
        cases hid : p.inlineData with
        | some d =>
          refine ⟨by simp [convertRun], by simp [convertRun], ?_⟩
          intro e he
          rcases List.mem_singleton.mp he with rfl
          rfl
        | none =>
          exact ⟨by simp [convertRun], by simp [convertRun], by intro e he; simp at he⟩

theorem processParts_spec (ps : List Part) : ∀ st : StreamState,
    (processParts st ps).1.toolCalls = st.toolCalls ++ (convertRun st.nextToolCallId ps).1 ∧
    (processParts st ps).1.nextToolCallId = (convertRun st.nextToolCallId ps).2 ∧
    ∀ e ∈ (processParts st ps).2, isToolCallsEvent e = false := by
  induction ps with
  | nil =>
    intro st
    exact ⟨by simp [processParts, convertRun], by simp [processParts, convertRun],
      by intro e he; simp [processParts] at he⟩
  | cons p ps ih =>
    intro st
    obtain ⟨hp1, hp2, hp3⟩ := processPart_spec st p
    obtain ⟨hq1, hq2, hq3⟩ := ih (processPart st p).1
    have hsplit : convertRun st.nextToolCallId (p :: ps) =
        ((convertRun st.nextToolCallId [p]).1 ++
          (convertRun (convertRun st.nextToolCallId [p]).2 ps).1,
         (convertRun (convertRun st.nextToolCallId [p]).2 ps).2) := by
      by_cases h1 : p.thought = some true
      · rw [convertRun, if_pos h1, convertRun, if_pos h1]
        simp [convertRun]
      · rw [convertRun, if_neg h1, convertRun, if_neg h1]
        cases ht : p.text with
        | some t => simp [convertRun]
        | none =>
          cases hfc : p.functionCall with
          | some fc => simp [convertRun]
          | none =>
            cases hid : p.inlineData with
            | some d => simp [convertRun]
            | none => simp [convertRun]
    refine ⟨?_, ?_, ?_⟩
    · show (processParts (processPart st p).1 ps).1.toolCalls = _
      rw [hq1, hp1, hp2, hsplit]
      simp
    · show (processParts (processPart st p).1 ps).1.nextToolCallId = _
      rw [hq2, hp2, hsplit]
    · intro e he
      show isToolCallsEvent e = false
      have : e ∈ (processPart st p).2 ++ (processParts (processPart st p).1 ps).2 := he
      rcases List.mem_append.mp this with h | h
      · exact hp3 e h
      · exact hq3 e h

theorem processFrame_state_parts (st : StreamState) (f : Frame) :
    let st1 := (match f.usageMetadata with
                | some u => { st with usage := some (toOpenAiUsage u) }
                | none => st)
    let r := (match f.parts with
              | some ps => processParts st1 ps
              | none => (st1, []))
    r.1.toolCalls = st.toolCalls ++ (convertRun st.nextToolCallId (f.parts.getD [])).1 ∧
    r.1.nextToolCallId = (convertRun st.nextToolCallId (f.parts.getD [])).2 ∧
    ∀ e ∈ r.2, isToolCallsEvent e = false := by
  have hst1 : ∀ st1 : StreamState,
      st1.toolCalls = st.toolCalls → st1.nextToolCallId = st.nextToolCallId →
      (match f.parts with
       | some ps => processParts st1 ps
       | none => (st1, [])).1.toolCalls =
          st.toolCalls ++ (convertRun st.nextToolCallId (f.parts.getD [])).1 ∧
      (match f.parts with
       | some ps => processParts st1 ps
       | none => (st1, [])).1.nextToolCallId =
          (convertRun st.nextToolCallId (f.parts.getD [])).2 ∧
      ∀ e ∈ (match f.parts with
             | some ps => processParts st1 ps
             | none => (st1, [])).2, isToolCallsEvent e = false := by
    intro st1 htc hid
    cases hp : f.parts with
    | some ps =>
      obtain ⟨h1, h2, h3⟩ := processParts_spec ps st1
      rw [htc] at h1
      rw [hid] at h1 h2
      exact ⟨by simpa using h1, by simpa using h2, by simpa using h3⟩
    | none =>
      refine ⟨by simp [convertRun, htc], by simp [convertRun, hid], by intro e he; simp at he⟩
  cases hu : f.usageMetadata with
  | some u => exact hst1 _ rfl rfl
  | none => exact hst1 _ rfl rfl

theorem processFrame_nonfinish (st : StreamState) (f : Frame)
    (hf : jsTruthyStr f.finishReason = false) :
    (processFrame st f).1.toolCalls =
      st.toolCalls ++ (convertRun st.nextToolCallId (f.parts.getD [])).1 ∧
    (processFrame st f).1.nextToolCallId =
      (convertRun st.nextToolCallId (f.parts.getD [])).2 ∧
    ∀ e ∈ (processFrame st f).2, isToolCallsEvent e = false := by
  obtain ⟨h1, h2, h3⟩ := processFrame_state_parts st f
  rw [processFrame]
  rw [if_neg (by rw [hf]; exact Bool.false_ne_true)]
  exact ⟨h1, h2, h3⟩

theorem flushTextAccumulator_toolCalls (st : StreamState) :
    (flushTextAccumulator st).toolCalls = st.toolCalls ∧
    (flushTextAccumulator st).nextToolCallId = st.nextToolCallId := by
  rw [flushTextAccumulator]
  split <;> exact ⟨rfl, rfl⟩

theorem processFrame_finish (st : StreamState) (f : Frame)
    (hf : jsTruthyStr f.finishReason = true)
    (hne : st.toolCalls ++ (convertRun st.nextToolCallId (f.parts.getD [])).1 ≠ []) :
    (processFrame st f).1.toolCalls = [] ∧
    ∃ evs0, (processFrame st f).2 =
        evs0 ++ [.toolCalls (st.toolCalls ++ (convertRun st.nextToolCallId (f.parts.getD [])).1)] ∧
      ∀ e ∈ evs0, isToolCallsEvent e = false := by
  obtain ⟨h1, h2, h3⟩ := processFrame_state_parts st f
  rw [processFrame]
  rw [if_pos hf]
  obtain ⟨hft, hfi⟩ := flushTextAccumulator_toolCalls
    (match f.parts with
     | some ps => processParts
        (match f.usageMetadata with
         | some u => { st with usage := some (toOpenAiUsage u) }
         | none => st) ps
     | none => ((match f.usageMetadata with
                 | some u => { st with usage := some (toOpenAiUsage u) }
                 | none => st), [])).1
  rw [if_pos (by rw [hft, h1]; exact hne)]
  refine ⟨rfl, ?_⟩
  rw [hft, h1]
  exact ⟨_, rfl, h3⟩

theorem processLines_append (st : StreamState) (l1 l2 : List RawLine) :
    processLines st (l1 ++ l2) =
      ((processLines (processLines st l1).1 l2).1,
       (processLines st l1).2 ++ (processLines (processLines st l1).1 l2).2) := by
  induction l1 generalizing st with
  | nil => simp [processLines]
  | cons l ls ih =>
    rw [List.cons_append, processLines, processLines, ih]
    simp [processLines]

theorem convertFramesRun_append (c : Nat) (f1 f2 : List Frame) :
    convertFramesRun c (f1 ++ f2) =
      ((convertFramesRun c f1).1 ++ (convertFramesRun (convertFramesRun c f1).2 f2).1,
       (convertFramesRun (convertFramesRun c f1).2 f2).2) := by
  induction f1 generalizing c with
  | nil => simp [convertFramesRun]
  | cons f fs ih =>
    rw [List.cons_append, convertFramesRun, convertFramesRun, ih]
    simp [convertFramesRun]

theorem processLines_nonfinish (frames : List Frame) :
    ∀ st : StreamState, (∀ g ∈ frames, jsTruthyStr g.finishReason = false) →
    (processLines st (frames.map RawLine.frame)).1.toolCalls =
      st.toolCalls ++ (convertFramesRun st.nextToolCallId frames).1 ∧
    (processLines st (frames.map RawLine.frame)).1.nextToolCallId =
      (convertFramesRun st.nextToolCallId frames).2 ∧
    ∀ e ∈ (processLines st (frames.map RawLine.frame)).2, isToolCallsEvent e = false := by
  induction frames with
  | nil =>
    intro st _
    exact ⟨by simp [processLines, convertFramesRun], by simp [processLines, convertFramesRun],
      by intro e he; simp [processLines] at he⟩
  | cons f fs ih =>
    intro st hall
    have hf : jsTruthyStr f.finishReason = false := hall f (List.mem_cons_self _ _)
    obtain ⟨h1, h2, h3⟩ := processFrame_nonfinish st f hf
    obtain ⟨hq1, hq2, hq3⟩ := ih (processFrame st f).1
      (fun g hg => hall g (List.mem_cons_of_mem _ hg))
    rw [List.map_cons]
    refine ⟨?_, ?_, ?_⟩
    · show (processLines (processFrame st f).1 (fs.map RawLine.frame)).1.toolCalls = _
      rw [hq1, h1, h2, convertFramesRun]
      simp
    · show (processLines (processFrame st f).1 (fs.map RawLine.frame)).1.nextToolCallId = _
      rw [hq2, h2, convertFramesRun]
    · intro e he
      rcases List.mem_append.mp he with h | h
      · exact h3 e h
      · exact hq3 e h

/-- Claim C8: over an upstream stream made of non-finish frames followed
by the finishing frame (the upstream contract's terminal event), no
tool-call event is emitted while individual frames are parsed; when at
least one tool call was buffered, exactly one batched `tool_calls`
emission — containing every buffered call in order — occurs at the
finish boundary (it is the final emission), and the buffer is empty
afterwards. -/
theorem c8_toolcalls_batched (st : StreamState) (pre : List Frame) (f : Frame)
    (hpre : ∀ g ∈ pre, jsTruthyStr g.finishReason = false)
    (hf : jsTruthyStr f.finishReason = true)
    (hne : st.toolCalls ++ (convertFramesRun st.nextToolCallId (pre ++ [f])).1 ≠ []) :
    (processLines st ((pre ++ [f]).map RawLine.frame)).1.toolCalls = [] ∧
    ∃ evs0, (processLines st ((pre ++ [f]).map RawLine.frame)).2 =
        evs0 ++ [.toolCalls
          (st.toolCalls ++ (convertFramesRun st.nextToolCallId (pre ++ [f])).1)] ∧
      ∀ e ∈ evs0, isToolCallsEvent e = false := by
  rw [List.map_append, processLines_append]
  obtain ⟨h1, h2, h3⟩ := processLines_nonfinish pre st hpre
  set stMid := (processLines st (pre.map RawLine.frame)).1 with hmid
  have hframes : convertFramesRun st.nextToolCallId (pre ++ [f]) =
      ((convertFramesRun st.nextToolCallId pre).1 ++
        (convertFramesRun (convertFramesRun st.nextToolCallId pre).2 [f]).1,
       (convertFramesRun (convertFramesRun st.nextToolCallId pre).2 [f]).2) :=
    convertFramesRun_append _ _ _
  have hsingle : (convertFramesRun (convertFramesRun st.nextToolCallId pre).2 [f]).1 =
      (convertRun (convertFramesRun st.nextToolCallId pre).2 (f.parts.getD [])).1 := by
    simp [convertFramesRun]
  have hbuffer : stMid.toolCalls ++ (convertRun stMid.nextToolCallId (f.parts.getD [])).1 =
      st.toolCalls ++ (convertFramesRun st.nextToolCallId (pre ++ [f])).1 := by
    rw [h1, h2, hframes, hsingle]
    simp
  have hneMid : stMid.toolCalls ++ (convertRun stMid.nextToolCallId (f.parts.getD [])).1 ≠ [] := by
    rw [hbuffer]
    exact hne
  obtain ⟨hz1, evs0, hz2, hz3⟩ := processFrame_finish stMid f hf hneMid
  have hsingleLine : processLines stMid ([f].map RawLine.frame) =
      ((processFrame stMid f).1, (processFrame stMid f).2) := by
    simp [processLines, parseAndEmitStreamChunk]
  refine ⟨by rw [hsingleLine]; exact hz1, ?_⟩
  refine ⟨(processLines st (pre.map RawLine.frame)).2 ++ evs0, ?_, ?_⟩
  · rw [hsingleLine]
    simp only
    rw [hz2, hbuffer]
    simp
  · intro e he
    rcases List.mem_append.mp he with h | h
    · exact h3 e h
    · exact hz3 e h

/-- Witness for C8: one frame with a single function call followed by a
finish frame emits exactly one batched tool-call event at the end. -/
theorem c8_toolcalls_batched_witness :
    ((∀ g ∈ [exCallFrame], jsTruthyStr g.finishReason = false) ∧
      jsTruthyStr exFinishFrame.finishReason = true ∧
      exStreamState.toolCalls ++
        (convertFramesRun exStreamState.nextToolCallId ([exCallFrame] ++ [exFinishFrame])).1 ≠ []) ∧
    ((processLines exStreamState
        (([exCallFrame] ++ [exFinishFrame]).map RawLine.frame)).1.toolCalls = [] ∧
      ∃ evs0, (processLines exStreamState
          (([exCallFrame] ++ [exFinishFrame]).map RawLine.frame)).2 =
        evs0 ++ [.toolCalls (exStreamState.toolCalls ++
          (convertFramesRun exStreamState.nextToolCallId ([exCallFrame] ++ [exFinishFrame])).1)] ∧
        ∀ e ∈ evs0, isToolCallsEvent e = false) := by
  refine ⟨⟨by decide, by decide, by decide⟩, ?_⟩
  exact c8_toolcalls_batched exStreamState [exCallFrame] exFinishFrame
    (by decide) (by decide) (by decide)

/-! ## C9 — malformed frames are skipped -/

/-- Claim C9: a line without the `data: ` prefix, or one whose JSON
payload is malformed, leaves the adapter state untouched and emits
nothing, and removing such a line from a stream does not change the
processing of the remaining lines. -/
theorem c9_malformed_frame_skipped (st : StreamState) :
    parseAndEmitStreamChunk st .malformed = (st, []) ∧
    parseAndEmitStreamChunk st .noData = (st, []) ∧
    (∀ pre post : List RawLine,
      processLines st (pre ++ RawLine.malformed :: post) = processLines st (pre ++ post)) ∧
    (∀ pre post : List RawLine,
      processLines st (pre ++ RawLine.noData :: post) = processLines st (pre ++ post)) := by
  refine ⟨rfl, rfl, ?_, ?_⟩
  · intro pre
    induction pre generalizing st with
    | nil => intro post; rfl
    | cons l ls ih => intro post; simp [processLines, ih]
  · intro pre
    induction pre generalizing st with
    | nil => intro post; rfl
    | cons l ls ih => intro post; simp [processLines, ih]

/-! ## C1/C2 — selection-policy infrastructure -/

@[simp] theorem stView_tokens (st : TMState) (c : UsageCache) (sid : Option String) (n : Nat) :
    (stView st c sid n).tokens = st.tokens := rfl

@[simp] theorem stView_stats (st : TMState) (c : UsageCache) (sid : Option String) (n : Nat) :
    (stView st c sid n).stats = st.stats := rfl

@[simp] theorem stView_hourlyLimit (st : TMState) (c : UsageCache) (sid : Option String)
    (n : Nat) : (stView st c sid n).hourlyLimit = st.hourlyLimit := rfl

@[simp] theorem stView_cooldownMs (st : TMState) (c : UsageCache) (sid : Option String)
    (n : Nat) : (stView st c sid n).cooldownMs = st.cooldownMs := rfl

@[simp] theorem stView_maxStickyUsage (st : TMState) (c : UsageCache) (sid : Option String)
    (n : Nat) : (stView st c sid n).maxStickyUsage = st.maxStickyUsage := rfl

@[simp] theorem stView_poolSize (st : TMState) (c : UsageCache) (sid : Option String)
    (n : Nat) : (stView st c sid n).poolSize = st.poolSize := rfl

@[simp] theorem stView_ledger (st : TMState) (c : UsageCache) (sid : Option String)
    (n : Nat) : (stView st c sid n).ledger = st.ledger := rfl

@[simp] theorem stView_usageCache (st : TMState) (c : UsageCache) (sid : Option String)
    (n : Nat) : (stView st c sid n).usageCache = c := rfl

@[simp] theorem stView_stickyTokenId (st : TMState) (c : UsageCache) (sid : Option String)
    (n : Nat) : (stView st c sid n).stickyTokenId = sid := rfl

@[simp] theorem stView_stickyUsageCount (st : TMState) (c : UsageCache) (sid : Option String)
    (n : Nat) : (stView st c sid n).stickyUsageCount = n := rfl

theorem stView_self (st : TMState) :
    stView st st.usageCache st.stickyTokenId st.stickyUsageCount = st := rfl

@[simp] theorem getStats_stView (st : TMState) (c : UsageCache) (sid : Option String) (n : Nat)
    (t : Token) : getStats (stView st c sid n) t = getStats st t := rfl

@[simp] theorem isInCooldown_stView (st : TMState) (c : UsageCache) (sid : Option String)
    (n : Nat) (now : Int) (t : Token) :
    isInCooldown (stView st c sid n) now t = isInCooldown st now t := rfl

@[simp] theorem lastUsedOf_stView (st : TMState) (c : UsageCache) (sid : Option String)
    (n : Nat) (t : Token) : lastUsedOf (stView st c sid n) t = lastUsedOf st t := rfl

theorem stView_setCache (st : TMState) (c c2 : UsageCache) (sid : Option String) (n : Nat) :
    { stView st c sid n with usageCache := c2 } = stView st c2 sid n := rfl

theorem coherent_refl (st : TMState) (now : Int) : Coherent st now st.usageCache :=
  fun _ => Or.inl rfl

theorem cacheFind_cons_self (c : UsageCache) (k : Option String) (e : CacheEntry) :
    cacheFind ((k, e) :: c) k = some e := by
  simp [cacheFind]

theorem cacheFind_cons_ne (c : UsageCache) (k q : Option String) (e : CacheEntry)
    (h : q ≠ k) : cacheFind ((k, e) :: c) q = cacheFind c q := by
  simp [cacheFind, h]

theorem coherent_extend (st : TMState) (now : Int) (c : UsageCache) (k : Option String)
    (hcoh : Coherent st now c)
    (hstale : ∀ e, cacheFind st.usageCache k = some e → ¬ (now - e.timestamp < USAGE_CACHE_TTL)) :
    Coherent st now ((k, freshEntry st now k) :: c) := by
  intro q
  by_cases hq : q = k
  · subst hq
    exact Or.inr ⟨cacheFind_cons_self _ _ _, hstale⟩
  · rw [cacheFind_cons_ne _ _ _ _ hq]
    exact hcoh q

theorem isWithinHourlyLimit_stView (st : TMState) (now : Int) (sid : Option String) (n : Nat)
    (c : UsageCache) (hcoh : Coherent st now c) (t : Token) :
    ∃ c2, isWithinHourlyLimit (stView st c sid n) now t =
        (withinLimitPure st now t, stView st c2 sid n) ∧ Coherent st now c2 := by
  by_cases hL : st.hourlyLimit = 0
  · refine ⟨c, ?_, hcoh⟩
    rw [isWithinHourlyLimit, if_pos (by simpa using hL)]
    rw [withinLimitPure, isWithinHourlyLimit, if_pos hL]
  · have hLv : ¬ (stView st c sid n).hourlyLimit = 0 := by simpa using hL
    rcases hcoh t.projectId with heq | ⟨hfreshE, hstale⟩
    · cases hbase : cacheFind st.usageCache t.projectId with
      | none =>
        have hcv : cacheFind c t.projectId = none := heq.trans hbase
        refine ⟨(t.projectId, freshEntry st now t.projectId) :: c, ?_, ?_⟩
        · rw [isWithinHourlyLimit, if_neg hLv, withinLimitPure, isWithinHourlyLimit, if_neg hL]
          simp only [stView_usageCache, stView_ledger, stView_hourlyLimit, hcv, hbase]
          rfl
        · exact coherent_extend st now c t.projectId hcoh (by rw [hbase]; intro e he; cases he)
      | some e =>
        have hcv : cacheFind c t.projectId = some e := heq.trans hbase
        by_cases hf : now - e.timestamp < USAGE_CACHE_TTL
        · refine ⟨c, ?_, hcoh⟩
          rw [isWithinHourlyLimit, if_neg hLv, withinLimitPure, isWithinHourlyLimit, if_neg hL]
          simp only [stView_usageCache, stView_hourlyLimit, hcv, hbase]
          rw [if_pos hf, if_pos hf]
        · refine ⟨(t.projectId, freshEntry st now t.projectId) :: c, ?_, ?_⟩
          · rw [isWithinHourlyLimit, if_neg hLv, withinLimitPure, isWithinHourlyLimit, if_neg hL]
            simp only [stView_usageCache, stView_ledger, stView_hourlyLimit, hcv, hbase]
            simp only [if_neg hf]
            rfl
          · refine coherent_extend st now c t.projectId hcoh ?_
            intro e2 he2
            rw [hbase] at he2
            cases he2
            exact hf
    · refine ⟨c, ?_, hcoh⟩
      rw [isWithinHourlyLimit, if_neg hLv, withinLimitPure, isWithinHourlyLimit, if_neg hL]
      simp only [stView_usageCache, stView_hourlyLimit, hfreshE]
      have hf0 : now - (freshEntry st now t.projectId).timestamp < USAGE_CACHE_TTL := by
        show now - now < USAGE_CACHE_TTL
        rw [USAGE_CACHE_TTL]
        omega
      rw [if_pos hf0]
      cases hbase : cacheFind st.usageCache t.projectId with
      | none => rfl
      | some e =>
        dsimp only
        rw [if_neg (hstale e hbase)]
        rfl

theorem filterUsableGo_stView (st : TMState) (now : Int) (excl : List String)
    (sid : Option String) (n : Nat) :
    ∀ (ts : List Token) (c : UsageCache), Coherent st now c →
      ∃ c2, filterUsableGo now excl ts (stView st c sid n) =
          (ts.filter (usableCond st now excl), stView st c2 sid n) ∧ Coherent st now c2 := by
  intro ts
  induction ts with
  | nil =>
    intro c hcoh
    exact ⟨c, rfl, hcoh⟩
  | cons t ts ih =>
    intro c hcoh
    by_cases h1 : (enabledB t && !(isInCooldown st now t)) = true
    · obtain ⟨c1, hwl, hcoh1⟩ := isWithinHourlyLimit_stView st now sid n c hcoh t
      obtain ⟨c2, hrest, hcoh2⟩ := ih c1 hcoh1
      refine ⟨c2, ?_, hcoh2⟩
      rw [filterUsableGo]
      rw [if_pos (by simpa using h1)]
      rw [hwl]
      simp only
      rw [hrest]
      simp only
      rw [List.filter_cons]
      by_cases hkeep : (withinLimitPure st now t && !(excl.contains (getTokenKey t))) = true
      · rw [if_pos hkeep]
        rw [if_pos (by
          show usableCond st now excl t = true
          simp only [usableCond, Bool.and_eq_true] at h1 hkeep ⊢
          exact ⟨⟨⟨h1.1, h1.2⟩, hkeep.1⟩, hkeep.2⟩)]
      · rw [if_neg hkeep]
        rw [if_neg (by
          show ¬ usableCond st now excl t = true
          intro hcond
          apply hkeep
          simp only [usableCond, Bool.and_eq_true] at hcond
          simp only [Bool.and_eq_true]
          exact ⟨hcond.1.2, hcond.2⟩)]
    · obtain ⟨c2, hrest, hcoh2⟩ := ih c hcoh
      refine ⟨c2, ?_, hcoh2⟩
      rw [filterUsableGo]
      rw [if_neg (by simpa using h1)]
      rw [hrest]
      simp only
      rw [List.filter_cons]
      rw [if_neg (by
        show ¬ usableCond st now excl t = true
        intro hcond
        apply h1
        simp only [usableCond, Bool.and_eq_true] at hcond
        simp only [Bool.and_eq_true]
        exact ⟨hcond.1.1.1, hcond.1.1.2⟩)]

/-- The usable list `getToken` computes is the pure filter of the
credential list. -/
theorem usableTokens_eq_filter (st : TMState) (now : Int) (excl : List String) :
    usableTokens st now excl = st.tokens.filter (usableCond st now excl) := by
  obtain ⟨c2, heq, -⟩ := filterUsableGo_stView st now excl st.stickyTokenId
    st.stickyUsageCount st.tokens st.usageCache (coherent_refl st now)
  rw [stView_self] at heq
  show (filterUsableGo now excl st.tokens st).1 = _
  rw [heq]

/-- `filterUsable` only refreshes the usage cache. -/
theorem filterUsable_state (st : TMState) (now : Int) (excl : List String) :
    ∃ c2, (filterUsable st now excl).2 = stView st c2 st.stickyTokenId st.stickyUsageCount ∧
      Coherent st now c2 := by
  obtain ⟨c2, heq, hcoh⟩ := filterUsableGo_stView st now excl st.stickyTokenId
    st.stickyUsageCount st.tokens st.usageCache (coherent_refl st now)
  rw [stView_self] at heq
  refine ⟨c2, ?_, hcoh⟩
  show (filterUsableGo now excl st.tokens st).2 = _
  rw [heq]

theorem insertLU_mem (stX : TMState) (t : Token) (l : List Token) (u : Token) :
    u ∈ insertLU stX t l ↔ u = t ∨ u ∈ l := by
  induction l with
  | nil => simp [insertLU]
  | cons a l ih =>
    rw [insertLU]
    split
    · simp
    · simp only [List.mem_cons, ih]
      tauto

theorem sortLU_mem (stX : TMState) (l : List Token) (u : Token) :
    u ∈ sortLU stX l ↔ u ∈ l := by
  induction l with
  | nil => simp [sortLU]
  | cons a l ih =>
    rw [sortLU, insertLU_mem]
    simp [ih]

theorem sortLU_eq_nil (stX : TMState) (l : List Token) (h : sortLU stX l = []) : l = [] := by
  cases l with
  | nil => rfl
  | cons a l =>
    have : a ∈ sortLU stX (a :: l) := (sortLU_mem _ _ _).mpr (List.mem_cons_self _ _)
    rw [h] at this
    cases this

theorem sortLU_head_le (stX : TMState) :
    ∀ (l : List Token) (f : Token) (rest : List Token), sortLU stX l = f :: rest →
      ∀ u ∈ l, lastUsedOf stX f ≤ lastUsedOf stX u := by
  intro l
  induction l with
  | nil => intro f rest h; cases h
  | cons t ts ih =>
    intro f rest h u hu
    rw [sortLU] at h
    cases hsort : sortLU stX ts with
    | nil =>
      have hts : ts = [] := sortLU_eq_nil _ _ hsort
      rw [hsort] at h
      rw [insertLU] at h
      cases h
      rcases List.mem_cons.mp hu with rfl | hmem
      · exact le_refl _
      · rw [hts] at hmem
        cases hmem
    | cons g gs =>
      rw [hsort] at h
      rw [insertLU] at h
      by_cases hle : lastUsedOf stX t ≤ lastUsedOf stX g
      · -- t goes in front: f = t and lastUsed t ≤ lastUsed g
        rw [if_pos hle] at h
        cases h
        rcases List.mem_cons.mp hu with rfl | hmem
        · exact le_refl _
        · exact le_trans hle (ih g gs hsort u hmem)
      · -- g stays in front: f = g
        rw [if_neg hle] at h
        cases h
        rcases List.mem_cons.mp hu with rfl | hmem
        · simp only [lastUsedOf] at hle ⊢
          omega
        · exact ih f gs hsort u hmem

theorem pickWeighted_mem (d : Token) :
    ∀ (ws : List (Token × ℚ)) (rv : ℚ),
      pickWeighted rv d ws = d ∨ pickWeighted rv d ws ∈ ws.map Prod.fst := by
  intro ws
  induction ws with
  | nil => intro rv; exact Or.inl rfl
  | cons w ws ih =>
    intro rv
    obtain ⟨t, wt⟩ := w
    rw [pickWeighted]
    split
    · exact Or.inr (List.mem_cons_self _ _)
    · rcases ih (rv - wt) with h | h
      · exact Or.inl h
      · exact Or.inr (List.mem_cons_of_mem _ h)

theorem take_cons_ne_nil (m : Nat) (hm : 1 ≤ m) (a : Token) (l : List Token) :
    (a :: l).take m ≠ [] := by
  cases m with
  | zero => omega
  | succ m => simp

/-- Any credential returned by `getToken` when the usable pool is
non-empty is a member of that pool. -/
theorem getToken_mem_usable (st : TMState) (now : Int) (excl : List String) (rand : ℚ)
    (hpool : 1 ≤ st.poolSize) (hne : usableTokens st now excl ≠ []) :
    ∃ r, (getToken st now excl rand).1 = some r ∧ r ∈ usableTokens st now excl := by
  have htokens : st.tokens ≠ [] := by
    intro h
    apply hne
    rw [usableTokens_eq_filter, h]
    rfl
  obtain ⟨c2, hst1, hcoh⟩ := filterUsable_state st now excl
  rw [getToken]
  rw [if_neg htokens]
  dsimp only
  rw [if_neg (show ¬ (filterUsable st now excl).1 = [] from hne)]
  rcases hpick : (match (filterUsable st now excl).2.stickyTokenId with
      | some sid =>
        if sid ≠ "" ∧ (filterUsable st now excl).2.stickyUsageCount <
            (filterUsable st now excl).2.maxStickyUsage ∧ excl.contains sid = false then
          List.find? (fun t => getTokenKey t == sid) (filterUsable st now excl).1
        else none
      | none => none) with _ | tok
  · rw [hpick]
    dsimp only
    cases hcand : List.take ((filterUsable st now excl).1.length ⊓
        (filterUsable st now excl).2.poolSize)
        (sortLU (filterUsable st now excl).2 (filterUsable st now excl).1) with
    | nil =>
      exfalso
      have hsne : sortLU (filterUsable st now excl).2 (filterUsable st now excl).1 ≠ [] := by
        intro h
        exact hne (sortLU_eq_nil _ _ h)
      have hmin : 1 ≤ (filterUsable st now excl).1.length ⊓
          (filterUsable st now excl).2.poolSize := by
        have h1 : 1 ≤ (filterUsable st now excl).1.length := by
          cases husable : (filterUsable st now excl).1 with
          | nil => exact absurd husable hne
          | cons a l => simp
        have h2 : 1 ≤ (filterUsable st now excl).2.poolSize := by
          rw [hst1]
          simpa using hpool
        omega
      cases hs2 : sortLU (filterUsable st now excl).2 (filterUsable st now excl).1 with
      | nil => exact hsne hs2
      | cons a l =>
        rw [hs2] at hcand
        exact take_cons_ne_nil _ hmin a l hcand
    | cons c0 cs =>
      dsimp only
      refine ⟨_, rfl, ?_⟩
      have hsub : c0 :: cs ⊆ sortLU (filterUsable st now excl).2 (filterUsable st now excl).1 := by
        rw [← hcand]
        exact List.take_subset _ _
      have hmemOf : ∀ u, u ∈ c0 :: cs → u ∈ (filterUsable st now excl).1 := by
        intro u hu
        exact (sortLU_mem _ _ _).mp (hsub hu)
      rcases pickWeighted_mem c0 ((c0 :: cs).map
          (fun t => (t, ((max 0 (now - lastUsedOf (filterUsable st now excl).2 t) + 1000 : Int) : ℚ))))
          (rand * (((c0 :: cs).map
            (fun t => (t, ((max 0 (now - lastUsedOf (filterUsable st now excl).2 t) + 1000 : Int) : ℚ)))).map
              Prod.snd).sum) with h | h
      · rw [h]
        exact hmemOf c0 (List.mem_cons_self _ _)
      · rw [List.map_map] at h
        have hid : (Prod.fst ∘ fun t =>
            (t, ((max 0 (now - lastUsedOf (filterUsable st now excl).2 t) + 1000 : Int) : ℚ))) =
              fun t => t := by
          funext x
          rfl
        rw [hid] at h
        simp only [List.map_id'] at h
        exact hmemOf _ h
  · rw [hpick]
    dsimp only
    refine ⟨tok, rfl, ?_⟩
    rcases hsid : (filterUsable st now excl).2.stickyTokenId with _ | sid
    · rw [hsid] at hpick
      cases hpick
    · rw [hsid] at hpick
      dsimp only at hpick
      by_cases hcondS : sid ≠ "" ∧ (filterUsable st now excl).2.stickyUsageCount <
          (filterUsable st now excl).2.maxStickyUsage ∧ excl.contains sid = false
      · rw [if_pos hcondS] at hpick
        exact List.mem_of_find?_eq_some hpick
      · rw [if_neg hcondS] at hpick
        cases hpick

theorem getToken_fallback (st : TMState) (now : Int) (excl : List String) (rand : ℚ)
    (hempty : usableTokens st now excl = [])
    (hfb : st.tokens.filter (fun t => enabledB t && !(excl.contains (getTokenKey t))) ≠ []) :
    ∃ r, (getToken st now excl rand).1 = some r ∧
      r ∈ st.tokens.filter (fun t => enabledB t && !(excl.contains (getTokenKey t))) ∧
      ∀ u ∈ st.tokens.filter (fun t => enabledB t && !(excl.contains (getTokenKey t))),
        lastUsedOf st r ≤ lastUsedOf st u := by
  have htokens : st.tokens ≠ [] := by
    intro h
    apply hfb
    rw [h]
    rfl
  rw [getToken, if_neg htokens]
  dsimp only
  rw [if_pos (show (filterUsable st now excl).1 = [] from hempty)]
  cases hsort : sortLU (filterUsable st now excl).2
      (st.tokens.filter (fun t => enabledB t && !(excl.contains (getTokenKey t)))) with
  | nil => exact absurd (sortLU_eq_nil _ _ hsort) hfb
  | cons f rest =>
    dsimp only
    refine ⟨f, rfl, ?_, ?_⟩
    · have hf : f ∈ sortLU (filterUsable st now excl).2
          (st.tokens.filter (fun t => enabledB t && !(excl.contains (getTokenKey t)))) := by
        rw [hsort]
        exact List.mem_cons_self _ _
      exact (sortLU_mem _ _ _).mp hf
    · intro u hu
      have hle := sortLU_head_le (filterUsable st now excl).2 _ f rest hsort u hu
      obtain ⟨c2, hst1, -⟩ := filterUsable_state st now excl
      rw [hst1] at hle
      simpa using hle

/-- Claim C1: when the eligible pool (enabled, non-excluded, not in
cooldown, under the hourly cap) is non-empty, the credential returned by
`getToken` is a member of it — enabled, not excluded, not in cooldown
and under its hourly cap; when the eligible pool is empty but some
enabled, non-excluded credential exists, the returned credential is an
enabled, non-excluded one with minimal `lastUsed` (cooldown and cap
ignored).  `1 ≤ poolSize` reflects the configuration (default 3); with a
zero pool size the JS code would throw. -/
theorem c1_selection_policy (st : TMState) (now : Int) (excl : List String) (rand : ℚ)
    (hpool : 1 ≤ st.poolSize) :
    (usableTokens st now excl ≠ [] →
      ∃ r, (getToken st now excl rand).1 = some r ∧
        enabledB r = true ∧ excl.contains (getTokenKey r) = false ∧
        isInCooldown st now r = false ∧ withinLimitPure st now r = true) ∧
    (usableTokens st now excl = [] →
      st.tokens.filter (fun t => enabledB t && !(excl.contains (getTokenKey t))) ≠ [] →
      ∃ r, (getToken st now excl rand).1 = some r ∧
        enabledB r = true ∧ excl.contains (getTokenKey r) = false ∧
        ∀ u ∈ st.tokens, enabledB u = true → excl.contains (getTokenKey u) = false →
          lastUsedOf st r ≤ lastUsedOf st u) := by
  constructor
  · intro hne
    obtain ⟨r, hret, hmem⟩ := getToken_mem_usable st now excl rand hpool hne
    rw [usableTokens_eq_filter] at hmem
    obtain ⟨-, hcond⟩ := List.mem_filter.mp hmem
    simp only [usableCond, Bool.and_eq_true] at hcond
    refine ⟨r, hret, hcond.1.1.1, ?_, ?_, hcond.1.2⟩
    · simpa using hcond.2
    · simpa using hcond.1.1.2
  · intro hempty hfb
    obtain ⟨r, hret, hmem, hmin⟩ := getToken_fallback st now excl rand hempty hfb
    obtain ⟨hrmem, hrcond⟩ := List.mem_filter.mp hmem
    simp only [Bool.and_eq_true] at hrcond
    refine ⟨r, hret, hrcond.1, by simpa using hrcond.2, ?_⟩
    intro u hu hen hex
    apply hmin
    apply List.mem_filter.mpr
    refine ⟨hu, ?_⟩
    rw [hen, hex]
    rfl

/-- Witness for C1 at a concrete state with a non-empty eligible
pool. -/
theorem c1_selection_policy_witness :
    (1 ≤ exFresh.poolSize ∧ usableTokens exFresh 1000 [] ≠ []) ∧
    (∃ r, (getToken exFresh 1000 [] 0).1 = some r ∧
      enabledB r = true ∧ ([] : List String).contains (getTokenKey r) = false ∧
      isInCooldown exFresh 1000 r = false ∧ withinLimitPure exFresh 1000 r = true) := by
  exact ⟨⟨by decide, by decide⟩,
    (c1_selection_policy exFresh 1000 [] 0 (by decide)).1 (by decide)⟩

/-! ## C2 — sticky-session behaviour -/

theorem getToken_sticky_hit (st : TMState) (now : Int) (excl : List String) (rand : ℚ)
    (c : UsageCache) (sid : String) (n : Nat) (tok : Token)
    (hcoh : Coherent st now c)
    (hsid : sid ≠ "") (hn : n < st.maxStickyUsage) (hexcl : excl.contains sid = false)
    (hfind : List.find? (fun t => getTokenKey t == sid) (usableTokens st now excl) = some tok) :
    ∃ c2, getToken (stView st c (some sid) n) now excl rand =
        (some tok, stView st c2 (some sid) (n + 1)) ∧ Coherent st now c2 := by
  obtain ⟨c2, hgo, hcoh2⟩ := filterUsableGo_stView st now excl (some sid) n st.tokens c hcoh
  have hfu : filterUsable (stView st c (some sid) n) now excl =
      (st.tokens.filter (usableCond st now excl), stView st c2 (some sid) n) := by
    show filterUsableGo now excl (stView st c (some sid) n).tokens (stView st c (some sid) n) = _
    rw [stView_tokens]
    exact hgo
  have hUeq : st.tokens.filter (usableCond st now excl) = usableTokens st now excl :=
    (usableTokens_eq_filter st now excl).symm
  have htokmem : tok ∈ usableTokens st now excl := List.mem_of_find?_eq_some hfind
  have hUne : ¬ st.tokens.filter (usableCond st now excl) = [] := by
    rw [hUeq]
    intro h
    rw [h] at htokmem
    cases htokmem
  have htokens : ¬ (stView st c (some sid) n).tokens = [] := by
    rw [stView_tokens]
    intro h
    apply hUne
    rw [h]
    rfl
  refine ⟨c2, ?_, hcoh2⟩
  rw [getToken, if_neg htokens]
  dsimp only
  rw [hfu]
  dsimp only
  rw [if_neg hUne]
  rw [stView_stickyTokenId]
  dsimp only
  rw [if_pos ⟨hsid, by simpa using hn, hexcl⟩]
  rw [hUeq, hfind]
  rfl

theorem getTokenIter_sticky (st : TMState) (now : Int) (excl : List String) (rand : ℚ)
    (sid : String) (tok : Token)
    (hsid : sid ≠ "") (hexcl : excl.contains sid = false)
    (hfind : List.find? (fun t => getTokenKey t == sid) (usableTokens st now excl) = some tok) :
    ∀ (k : Nat) (c : UsageCache) (n : Nat), Coherent st now c →
      n + k ≤ st.maxStickyUsage →
      (getTokenIter k (stView st c (some sid) n) now excl rand).1 =
        List.replicate k (some tok) := by
  intro k
  induction k with
  | zero => intro c n _ _; rfl
  | succ k ih =>
    intro c n hcoh hbud
    have hn : n < st.maxStickyUsage := by omega
    obtain ⟨c2, hstep, hcoh2⟩ :=
      getToken_sticky_hit st now excl rand c sid n tok hcoh hsid hn hexcl hfind
    rw [getTokenIter, hstep]
    dsimp only
    rw [ih c2 (n + 1) hcoh2 (by omega)]
    rw [List.replicate_succ]

theorem pickWeighted_self_single (rv w : ℚ) (t : Token) :
    pickWeighted rv t [(t, w)] = t := by
  show (if rv - w ≤ 0 then t else pickWeighted (rv - w) t []) = t
  split
  · rfl
  · rfl

/-- Claim C2 is falsified at exhaustion: with one enabled credential,
the sticky session pointing at it and its sticky budget exhausted, the
next selection goes through the load-balancing path and returns the
*same* credential, not a different one. -/
theorem c2_sticky_session_counterexample :
    exStickyExhausted.stickyTokenId = some (getTokenKey exTokA) ∧
    exStickyExhausted.maxStickyUsage ≤ exStickyExhausted.stickyUsageCount ∧
    (getToken exStickyExhausted 1000 [] 0).1 = some exTokA := by
  refine ⟨rfl, by decide, ?_⟩
  have h : (getToken exStickyExhausted 1000 [] 0).1 =
      some (pickWeighted (0 * (((2000 : Int) : ℚ) + 0)) exTokA
        [(exTokA, ((2000 : Int) : ℚ))]) := rfl
  rw [h, pickWeighted_self_single]

/-- Claim C2 (amended): while the sticky session points at an eligible,
non-excluded credential and its use count is below `maxStickyUsage`,
consecutive selections keep returning that credential (incrementing the
count each time), so it is returned up to `maxStickyUsage` times in
total; once the count reaches `maxStickyUsage`, the next selection is
drawn from the eligible pool by the load-balancing policy and may be
any eligible credential — including the same one (nothing forces a
different credential, as the counterexample shows). -/
theorem c2_sticky_session_amended (st : TMState) (now : Int) (excl : List String) (rand : ℚ) :
    (∀ (sid : String) (tok : Token) (k : Nat),
      st.stickyTokenId = some sid → sid ≠ "" → excl.contains sid = false →
      List.find? (fun t => getTokenKey t == sid) (usableTokens st now excl) = some tok →
      st.stickyUsageCount + k ≤ st.maxStickyUsage →
      (getTokenIter k st now excl rand).1 = List.replicate k (some tok)) ∧
    (st.maxStickyUsage ≤ st.stickyUsageCount → 1 ≤ st.poolSize →
      usableTokens st now excl ≠ [] →
      ∃ r, (getToken st now excl rand).1 = some r ∧ r ∈ usableTokens st now excl) := by
  constructor
  · intro sid tok k hsticky hsid hexcl hfind hbud
    have hiter := getTokenIter_sticky st now excl rand sid tok hsid hexcl hfind k
      st.usageCache st.stickyUsageCount (coherent_refl st now) hbud
    have hview : stView st st.usageCache (some sid) st.stickyUsageCount = st := by
      rw [← hsticky]
      exact stView_self st
    rw [hview] at hiter
    exact hiter
  · intro _ hpool hne
    exact getToken_mem_usable st now excl rand hpool hne

/-- Witness for the amended C2: with a live sticky session two
consecutive selections both return the sticky credential. -/
theorem c2_sticky_session_amended_witness :
    (exStickyLive.stickyTokenId = some (getTokenKey exTokA) ∧
      getTokenKey exTokA ≠ "" ∧
      ([] : List String).contains (getTokenKey exTokA) = false ∧
      List.find? (fun t => getTokenKey t == getTokenKey exTokA)
        (usableTokens exStickyLive 1000 []) = some exTokA ∧
      exStickyLive.stickyUsageCount + 2 ≤ exStickyLive.maxStickyUsage) ∧
    (getTokenIter 2 exStickyLive 1000 [] 0).1 = List.replicate 2 (some exTokA) := by
  refine ⟨⟨by decide, by decide, by decide, by decide, by decide⟩, ?_⟩
  exact (c2_sticky_session_amended exStickyLive 1000 [] 0).1 (getTokenKey exTokA) exTokA 2
    (by decide) (by decide) (by decide) (by decide) (by decide)

/-! ## C4 — two-tier 429 retry policy -/

theorem exPick_respects_exclusion :
    ∀ (tm : TMState) (ex : List String) (t : Token),
      exPick tm ex = some t → ex.contains (getTokenKey t) = false := by
  intro tm ex t h
  unfold exPick at h
  have hmem : t ∈ tm.tokens.filter (fun u => !(ex.contains (getTokenKey u))) := by
    cases hh : tm.tokens.filter (fun u => !(ex.contains (getTokenKey u))) with
    | nil => rw [hh] at h; cases h
    | cons a l =>
      rw [hh] at h
      cases h
      exact List.mem_cons_self _ _
  have := (List.mem_filter.mp hmem).2
  simpa using this

/-- Claim C4: in the orchestrator loop, the first 429 on a credential
performs the computed wait (upstream retry delay if present, else
exponential backoff with jitter) and queues the *same* credential for
redispatch without consuming the attempt budget (the attempt counter is
restored while the retry counter is incremented, and the credential is
not excluded); a second 429 on that credential excludes it, consumes one
attempt, and the next selection cannot return it.  Hence a credential
failing 429 twice is dispatched exactly twice before exclusion. -/
theorem c4_429_two_tier (cfg : RetryConfig) (pick : TMState → List String → Option Token)
    (now : Int) (s : LoopState) (c : Token) (d1 d2 : ErrDetails)
    (hra1 hra2 : Option Int) (j1 j2 : ℚ)
    (hretrying : s.retryingToken = none)
    (hpick : pick s.tm s.excludedTokenIds = some c)
    (hd1s : d1.status = some 429) (hd1f : d1.disableToken = false)
    (hd2s : d2.status = some 429) (hd2f : d2.disableToken = false)
    (hfresh : s.retried429Tokens.contains (getTokenKey c) = false)
    (hnotlast : s.attempt + 1 < cfg.maxAttempts)
    (hpick2 : ∀ tm ex t, pick tm ex = some t → ex.contains (getTokenKey t) = false) :
    stepIter cfg pick now s (.fail d1) hra1 j1 =
      (.continued ⟨s.attempt, s.retryCountForLog + 1, s.excludedTokenIds,
         getTokenKey c :: s.retried429Tokens, some c, s.tm,
         some ⟨some 429, .rateLimited, d1.retryDelayMs⟩⟩,
       ⟨some c, some (calculateRetryDelay (s.attempt + 1)
         ⟨some 429, .rateLimited, d1.retryDelayMs⟩ hra1 j1)⟩) ∧
    stepIter cfg pick now
        ⟨s.attempt, s.retryCountForLog + 1, s.excludedTokenIds,
         getTokenKey c :: s.retried429Tokens, some c, s.tm,
         some ⟨some 429, .rateLimited, d1.retryDelayMs⟩⟩ (.fail d2) hra2 j2 =
      (.continued ⟨s.attempt + 1, s.retryCountForLog + 2,
         getTokenKey c :: s.excludedTokenIds, getTokenKey c :: s.retried429Tokens, none,
         recordFailure s.tm now c (some 429),
         some ⟨some 429, .rateLimited, d2.retryDelayMs⟩⟩,
       ⟨some c, none⟩) ∧
    (∀ t, pick (recordFailure s.tm now c (some 429))
        (getTokenKey c :: s.excludedTokenIds) = some t →
      getTokenKey t ≠ getTokenKey c) := by
  have he1 : handleApiError d1 s.tm c = (s.tm, ⟨some 429, .rateLimited, d1.retryDelayMs⟩) := by
    rw [handleApiError, if_neg (by rw [hd1s, hd1f]; simp), hd1s]
    simp
  refine ⟨?_, ?_, ?_⟩
  · simp only [stepIter, hretrying, hpick, he1]
    rw [if_pos ⟨trivial, hfresh⟩]
    simp
  · have hne2 : ¬ (s.attempt + 1 = cfg.maxAttempts) := Nat.ne_of_lt hnotlast
    simp [stepIter, handleApiError, hd2s, hd2f, hne2]
  · intro t ht
    have hcontains := hpick2 _ _ _ ht
    intro heq
    rw [heq] at hcontains
    simp at hcontains

/-- Witness for C4 at a concrete pool and loop state. -/
theorem c4_429_two_tier_witness :
    (exLoopStart.retryingToken = none ∧
      exPick exLoopStart.tm exLoopStart.excludedTokenIds = some exTokA ∧
      ex429Details.status = some 429 ∧ ex429Details.disableToken = false ∧
      exLoopStart.retried429Tokens.contains (getTokenKey exTokA) = false ∧
      exLoopStart.attempt + 1 < exRetryConfig.maxAttempts) ∧
    stepIter exRetryConfig exPick 1000 exLoopStart (.fail ex429Details) none 0 =
      (.continued ⟨0, 1, [], [getTokenKey exTokA], some exTokA, exTM2,
         some ⟨some 429, .rateLimited, none⟩⟩,
       ⟨some exTokA, some (calculateRetryDelay 1 ⟨some 429, .rateLimited, none⟩ none 0)⟩) := by
  have h := c4_429_two_tier exRetryConfig exPick 1000 exLoopStart exTokA ex429Details ex429Details
    none none 0 0 rfl (by decide) rfl rfl rfl rfl (by decide) (by decide)
    exPick_respects_exclusion
  exact ⟨⟨rfl, by decide, rfl, rfl, by decide, by decide⟩, h.1⟩

/-! ## C5 — auth failures disable the credential but the request
continues on another credential -/

/-- Claim C5 as stated is falsified by the code: after a 403 auth
failure the loop state is `continued` (not a halt), and the next
iteration dispatches a different credential — the request is not
aborted. -/
theorem c5_auth_abort_counterexample :
    isContinued
      (stepIter exRetryConfig exPick 1000 exLoopStart (.fail exAuthDetails) none 0).1 = true ∧
    (stepIter exRetryConfig exPick 1000
      (continuedStateD
        (stepIter exRetryConfig exPick 1000 exLoopStart (.fail exAuthDetails) none 0).1
        exLoopStart)
      (.fail exAuthDetails) none 0).2.dispatched = some exTokB ∧
    getTokenKey exTokB ≠ getTokenKey exTokA := by
  decide

/-- Claim C5 (amended): an auth failure (401/403, or an embedded auth
error carrying `disableToken`) permanently disables the credential —
it is removed from the manager's pool — and is classified
`TOKEN_DISABLED`, but the request is not aborted: `TOKEN_DISABLED` is
retryable, so unless this was the final attempt the loop continues,
with the failed credential excluded so the next selection returns a
different credential; only on the final attempt does the error surface
as the terminal response. -/
theorem c5_auth_failure_amended (cfg : RetryConfig)
    (pick : TMState → List String → Option Token) (now : Int) (s : LoopState)
    (c : Token) (d : ErrDetails) (hra : Option Int) (j : ℚ)
    (hretrying : s.retryingToken = none)
    (hpick : pick s.tm s.excludedTokenIds = some c)
    (hauth : d.status = some 401 ∨ d.status = some 403 ∨ d.disableToken = true)
    (hnot429 : d.status ≠ some 429)
    (hc : c ∈ s.tm.tokens)
    (huniq : ∀ t ∈ s.tm.tokens, t.access_token = c.access_token →
      t.refresh_token = c.refresh_token)
    (hpick2 : ∀ tm ex t, pick tm ex = some t → ex.contains (getTokenKey t) = false) :
    (handleApiError d s.tm c).2.code = .tokenDisabled ∧
    (∀ t ∈ (handleApiError d s.tm c).1.tokens, t.refresh_token ≠ c.refresh_token) ∧
    (stepIter cfg pick now s (.fail d) hra j).2.dispatched = some c ∧
    (s.attempt + 1 ≠ cfg.maxAttempts →
      stepIter cfg pick now s (.fail d) hra j =
        (.continued ⟨s.attempt + 1, s.retryCountForLog + 1,
           getTokenKey c :: s.excludedTokenIds, s.retried429Tokens, none,
           recordFailure (handleApiError d s.tm c).1 now c d.status,
           some ⟨d.status, .tokenDisabled, none⟩⟩,
         ⟨some c, none⟩)) ∧
    (s.attempt + 1 = cfg.maxAttempts →
      stepIter cfg pick now s (.fail d) hra j =
        (.halted (.terminal ⟨d.status, .tokenDisabled, none⟩)
           (recordFailure (handleApiError d s.tm c).1 now c d.status),
         ⟨some c, none⟩)) ∧
    (∀ t, pick (recordFailure (handleApiError d s.tm c).1 now c d.status)
        (getTokenKey c :: s.excludedTokenIds) = some t →
      getTokenKey t ≠ getTokenKey c) := by
  have hcond : d.status = some 403 ∨ d.status = some 401 ∨ d.disableToken = true := by
    tauto
  have hhe : handleApiError d s.tm c =
      (disableCurrentToken s.tm c, ⟨d.status, .tokenDisabled, none⟩) := by
    rw [handleApiError, if_pos hcond]
  have hremoved : ∀ t ∈ (handleApiError d s.tm c).1.tokens,
      t.refresh_token ≠ c.refresh_token := by
    rw [hhe]
    intro t htmem
    simp only at htmem
    unfold disableCurrentToken at htmem
    cases hfind : s.tm.tokens.find? (fun u => u.access_token == c.access_token) with
    | none =>
      exact absurd (List.find?_eq_none.mp hfind c hc) (by simp)
    | some found =>
      rw [hfind] at htmem
      simp only at htmem
      have hfacc : found.access_token = c.access_token := by
        have := List.find?_some hfind
        simpa using this
      have hfmem : found ∈ s.tm.tokens := List.mem_of_find?_eq_some hfind
      have hfref : found.refresh_token = c.refresh_token := huniq found hfmem hfacc
      have := (List.mem_filter.mp htmem).2
      rw [hfref] at this
      simpa using this
  refine ⟨by rw [hhe], hremoved, ?_, ?_, ?_, ?_⟩
  · simp [stepIter, hretrying, hpick, hhe, hnot429]
    split <;> rfl
  · intro hlast
    simp [stepIter, hretrying, hpick, hhe, hnot429, hlast]
  · intro hlast
    simp [stepIter, hretrying, hpick, hhe, hnot429, hlast]
  · intro t ht
    have hcontains := hpick2 _ _ _ ht
    intro heq
    rw [heq] at hcontains
    simp at hcontains

/-- Witness for the amended C5 at a concrete pool. -/
theorem c5_auth_failure_amended_witness :
    (exLoopStart.retryingToken = none ∧
      exPick exLoopStart.tm exLoopStart.excludedTokenIds = some exTokA ∧
      exAuthDetails.status = some 403 ∧ exAuthDetails.status ≠ some 429 ∧
      exTokA ∈ exLoopStart.tm.tokens) ∧
    (handleApiError exAuthDetails exLoopStart.tm exTokA).2.code = .tokenDisabled ∧
    (∀ t ∈ (handleApiError exAuthDetails exLoopStart.tm exTokA).1.tokens,
      t.refresh_token ≠ exTokA.refresh_token) := by
  have h := c5_auth_failure_amended exRetryConfig exPick 1000 exLoopStart exTokA exAuthDetails
    none 0 rfl (by decide) (Or.inr (Or.inl rfl)) (by decide) (by decide)
    (by decide) exPick_respects_exclusion
  exact ⟨⟨rfl, by decide, rfl, by decide, by decide⟩, h.1, h.2.1⟩

end AG
